import Mathlib

/-!
# property_to_yaml: the line parser, the tree builder and the pretty post-pass

A shallow embedding of `src/main.go`.

* `propLine`, `pair` are the Go structs of the same names.
* `Node` stands for `yaml.Node` restricted to the two kinds `buildTree` produces.
  A mapping node's `Content` slice alternates key node and value node; it is
  kept here as the list of (key, value node) pairs in the same order.
* Go strings are byte strings; they are embedded as Lean strings, and the
  comparison `ordered[i].Key < ordered[j].Key` as the lexicographic order of
  the character lists (for UTF-8 text the byte order and the code point order
  agree).
* `sort.Slice` is a library sort (not stable).  It is embedded as an insertion
  sort on the keys.  The keys handed to it are pairwise distinct (lemma
  `collect_keys_nodup`), so every correct sort returns the same slice.
* `buildTree` recurses on groups whose paths get shorter.  The embedding
  recurses on a fuel counter, started above the longest path (`depth`);
  `buildTree_eq` shows that `buildTree` satisfies the recursion of the source,
  and `buildTreeFuel_stable` that any larger fuel gives the same tree;
  `buildTreeBounded` is the same body with `none` for a used-up bound.
* The scanner and the files are not embedded: the parser takes the lines the
  scanner delivers, the pretty post-pass the lines of the rendered document.
  `strings.SplitN(line, sep, 2)` and `strings.Split(key, ".")` are embedded
  for the one-character separators the source passes.
-/

namespace PropertyToYaml

/-! ## Data model (main.go 14-17, 38-41, yaml.Node) -/

structure propLine where
  Keys : List String
  Value : String
deriving DecidableEq, Repr

structure pair where
  Key : String
  Lines : List propLine
deriving DecidableEq, Repr

inductive Node where
  | scalar (Value : String) : Node
  | mapping (Content : List (String × Node)) : Node

/-! ## buildTree (main.go 29-80) -/

/-- The guard of main.go line 31 together with the value read at line 34:
`len(pairs) == 1 && len(pairs[0].Keys) == 0`. -/
def leafValue : List propLine → Option String
  | [p] => if p.Keys.length = 0 then some p.Value else none
  | _ => none

/-- The inner loop, main.go lines 51-56: the lines whose first key is `k`,
each with that first key cut off (`pp.Keys[1:]`). -/
def groupLines (k : String) : List propLine → List propLine
  | [] => []
  | pp :: rest =>
    match pp.Keys with
    | [] => groupLines k rest
    | k0 :: ks =>
      if k0 = k then ⟨ks, pp.Value⟩ :: groupLines k rest else groupLines k rest

/-- The outer loop, main.go lines 44-59, over the lines still to visit.
`pairs` is the whole slice (the inner loop ranges over it), `seen` the keys
of the map `seen`, `ordered` the slice built so far. -/
def collectLoop (pairs : List propLine) :
    List propLine → List String → List pair → List pair
  | [], _, ordered => ordered
  | p :: rest, seen, ordered =>
    match p.Keys with
    | [] => collectLoop pairs rest seen ordered
    | k :: _ =>
      if k ∈ seen then collectLoop pairs rest seen ordered
      else collectLoop pairs rest (k :: seen) (ordered ++ [⟨k, groupLines k pairs⟩])

/-- The slice `ordered` after the loop of main.go lines 42-59. -/
def collect (pairs : List propLine) : List pair :=
  collectLoop pairs pairs [] []

/-- The order in which the sort leaves two elements: `a` may stand before `b`
when `less(b, a)` is false, `less` being `ordered[i].Key < ordered[j].Key`
(main.go line 62). -/
def keyLE (a b : pair) : Prop := ¬ b.Key.data < a.Key.data

instance keyLE_decidable : DecidableRel keyLE := fun a b =>
  inferInstanceAs (Decidable (¬ b.Key.data < a.Key.data))

/-- The call `sort.Slice(ordered, less)`, main.go lines 61-63. -/
def sortPairs (ordered : List pair) : List pair :=
  List.insertionSort keyLE ordered

/-- The slice `ordered` as the final loop sees it, main.go lines 42-64. -/
def ordered (pairs : List propLine) (sortAlpha : Bool) : List pair :=
  if sortAlpha then sortPairs (collect pairs) else collect pairs

/-- The longest path of a group. -/
def depth : List propLine → Nat
  | [] => 0
  | p :: rest => max p.Keys.length (depth rest)

/-- The body of `buildTree` with a bound on the nesting of calls. -/
def buildTreeFuel : Nat → List propLine → Bool → Node
  | 0, _, _ => Node.mapping []
  | fuel + 1, pairs, sortAlpha =>
    match leafValue pairs with
    | some v => Node.scalar v
    | none =>
      Node.mapping ((ordered pairs sortAlpha).map fun p =>
        (p.Key, buildTreeFuel fuel p.Lines sortAlpha))

/-- The function `buildTree` of main.go lines 29-80. -/
def buildTree (pairs : List propLine) (sortAlpha : Bool) : Node :=
  buildTreeFuel (depth pairs + 1) pairs sortAlpha

/-! ## Reading a tree -/

/-- The value node stored under the first key equal to `s`. -/
def lookupKey (s : String) : List (String × Node) → Option Node
  | [] => none
  | (k, v) :: rest => if k = s then some v else lookupKey s rest

/-- One mapping lookup: the child of a mapping node under the key `s`. -/
def Node.child : Node → String → Option Node
  | Node.scalar _, _ => none
  | Node.mapping c, s => lookupKey s c

/-- Following a key path from a node, one mapping lookup per segment. -/
def Node.follow : Node → List String → Option Node
  | n, [] => some n
  | n, s :: P =>
    match n.child s with
    | none => none
    | some c => c.follow P

/-- The relation `t.At P n`: the node `n` occurs in the tree `t` at the end of
the key path `P`; each step goes from a mapping to any of its entries. -/
inductive Node.At : Node → List String → Node → Prop
  | here (n : Node) : Node.At n [] n
  | step {c : List (String × Node)} {s : String} {child : Node} {P : List String}
      {n : Node} (hmem : (s, child) ∈ c) (hrest : Node.At child P n) :
      Node.At (Node.mapping c) (s :: P) n

/-- The keys of a mapping's entries, in order. -/
def keysOf (c : List (String × Node)) : List String := c.map Prod.fst

/-! ## Descriptions in the words of the specification -/

/-- The first segments of the entries that have a non-empty path. -/
def firstSegs (pairs : List propLine) : List String :=
  pairs.filterMap fun p => p.Keys.head?

/-- A list with later duplicates removed (first-encounter order). -/
def firstOccurrences : List String → List String
  | [] => []
  | x :: xs => x :: (firstOccurrences xs).filter fun y => y ≠ x

/-- The sub-sequence of the entries whose first segment is `s`, in their
original relative order, with that first segment stripped. -/
def subGroup (s : String) (pairs : List propLine) : List propLine :=
  (pairs.filter fun p => p.Keys.head? = some s).map fun p => ⟨p.Keys.tail, p.Value⟩

/-- The group of a nesting level: the entries below the key path `P`. -/
def groupAt : List propLine → List String → List propLine
  | pairs, [] => pairs
  | pairs, s :: P => groupAt (subGroup s pairs) P

/-- No entry's path is equal to or a prefix of another entry's path. -/
def NoCollision (pairs : List propLine) : Prop :=
  pairs.Pairwise fun a b => ¬ a.Keys <+: b.Keys ∧ ¬ b.Keys <+: a.Keys

/-! ## The pretty post-pass (main.go 167-182) -/

/-- Go's `unicode.IsSpace`. -/
def isSpace (c : Char) : Bool :=
  c = '\t' || c = '\n' || c.val = 0x0B || c.val = 0x0C || c = '\r' || c = ' ' ||
  c.val = 0x85 || c.val = 0xA0 || c.val = 0x1680 ||
  (0x2000 ≤ c.val && c.val ≤ 0x200A) ||
  c.val = 0x2028 || c.val = 0x2029 || c.val = 0x202F || c.val = 0x205F ||
  c.val = 0x3000

/-- Go's `strings.TrimSpace`: the string without its leading and trailing
white space. -/
def TrimSpace (s : String) : String :=
  ⟨((s.data.dropWhile isSpace).reverse.dropWhile isSpace).reverse⟩

/-- Go's `strings.HasSuffix`. -/
def HasSuffix (s suffix : String) : Bool :=
  suffix.data.isSuffixOf s.data

/-- The classification of main.go lines 172-173:
`trimmed == line && strings.HasSuffix(trimmed, ":") && len(trimmed) > 0`. -/
def isTop (line : String) : Bool :=
  let trimmed := TrimSpace line
  trimmed = line && HasSuffix trimmed ":" && trimmed.length > 0

/-- The loop of main.go lines 170-182 over the lines still to visit, with the
counter `topLevelKeyCount` and the slice `result` built so far. -/
def prettyLoop : List String → Nat → List String → List String
  | [], _, result => result
  | line :: rest, topLevelKeyCount, result =>
    if isTop line then
      if topLevelKeyCount + 1 > 1 then
        prettyLoop rest (topLevelKeyCount + 1) ((result ++ [""]) ++ [line])
      else
        prettyLoop rest (topLevelKeyCount + 1) (result ++ [line])
    else
      prettyLoop rest topLevelKeyCount (result ++ [line])

/-- The pretty post-pass on the lines of the rendered document. -/
def prettyPass (lines : List String) : List String :=
  prettyLoop lines 0 []

/-- The number of lines classified top-level key. -/
def topCount (lines : List String) : Nat :=
  lines.countP fun l => isTop l

/-- The lines written for line `i` of the input, in the words of the
specification: a blank line goes before a top-level-key line that is not the
first such line. -/
def spacedBlock (lines : List String) (i : Nat) (line : String) : List String :=
  if isTop line && (lines.take i).any (fun l => isTop l) then ["", line] else [line]

/-- The blocks of all lines, in order. -/
def spacedBlocks (lines : List String) : List (List String) :=
  lines.enum.map fun p => spacedBlock lines p.1 p.2

/-- The output of the loop from a given point on, by the state of the counter:
`seen` says that a top-level-key line has been counted already. -/
def blocksFrom (seen : Bool) : List String → List String
  | [] => []
  | line :: rest =>
    if isTop line then
      (if seen then ["", line] else [line]) ++ blocksFrom true rest
    else
      line :: blocksFrom seen rest

/-! ## The line parser (main.go 105-123) -/

/-- The characters of `strings.TrimSpace`: a text without its leading and
trailing white space. -/
def trimChars (l : List Char) : List Char :=
  ((l.dropWhile isSpace).reverse.dropWhile isSpace).reverse

/-- Go's `strings.HasPrefix`. -/
def HasPrefix (s pfx : String) : Bool :=
  pfx.data.isPrefixOf s.data

/-- The cut of a text at the first occurrence of the character `sep`: the
text before it and the text after it; `none` when `sep` does not occur. -/
def cutFirst (sep : Char) : List Char → Option (List Char × List Char)
  | [] => none
  | c :: cs =>
    if c = sep then some ([], cs)
    else
      match cutFirst sep cs with
      | none => none
      | some (a, b) => some (c :: a, b)

/-- Go's `strings.SplitN(s, sep, 2)` for a separator of one character: the
whole string when `sep` does not occur, else the two sides of its first
occurrence. -/
def SplitN2 (s : String) (sep : Char) : List String :=
  match cutFirst sep s.data with
  | none => [s]
  | some (a, b) => [⟨a⟩, ⟨b⟩]

/-- The pieces of a text between the occurrences of `sep`. -/
def splitChars (sep : Char) : List Char → List (List Char)
  | [] => [[]]
  | c :: cs =>
    if c = sep then [] :: splitChars sep cs
    else
      match splitChars sep cs with
      | [] => [[c]]
      | seg :: segs => (c :: seg) :: segs

/-- Go's `strings.Split(s, sep)` for a separator of one character. -/
def Split (s : String) (sep : Char) : List String :=
  (splitChars sep s.data).map String.mk

/-- The body of the scanning loop for one line of the file, main.go lines
108-122: `none` where the source says `continue`, else the entry appended. -/
def parseLine (text : String) : Option propLine :=
  let line := TrimSpace text
  if line = "" || HasPrefix line "#" then none
  else
    let parts := SplitN2 line '='
    let parts := if parts.length ≠ 2 then SplitN2 line ':' else parts
    match parts with
    | [k, v] => some ⟨Split (TrimSpace k) '.', TrimSpace v⟩
    | _ => none

/-- The scanning loop, main.go lines 107-123, over the lines the scanner
still has to deliver, with the slice `props` built so far. -/
def parseLoop : List String → List propLine → List propLine
  | [], props => props
  | text :: rest, props =>
    match parseLine text with
    | none => parseLoop rest props
    | some p => parseLoop rest (props ++ [p])

/-- The entry sequence `props` read from the lines of the input file. -/
def parse (lines : List String) : List propLine :=
  parseLoop lines []

/-- A line that, after white space trimming, is non-empty, does not start
with `#`, and contains `=` or `:`. -/
def accepted (text : String) : Bool :=
  let line := TrimSpace text
  line ≠ "" && !HasPrefix line "#" && (line.data.contains '=' || line.data.contains ':')

/-- The tree of one entry alone: one mapping with one key per segment, around
the scalar. -/
def chainOf (keys : List String) (v : String) : Node :=
  keys.foldr (fun k t => Node.mapping [(k, t)]) (Node.scalar v)

/-! ## Sorting a tree, and the calls of buildTree -/

/-- The order of two mapping entries by their keys. -/
def entryLE (a b : String × Node) : Prop := ¬ b.1.data < a.1.data

instance entryLE_decidable : DecidableRel entryLE := fun a b =>
  inferInstanceAs (Decidable (¬ b.1.data < a.1.data))

/-- The (segment, child) pairs of one mapping sorted by segment. -/
def sortContent (c : List (String × Node)) : List (String × Node) :=
  List.insertionSort entryLE c

mutual
/-- The tree with the pairs of every mapping sorted by segment, at every
nesting level. -/
def Node.sortTree : Node → Node
  | Node.scalar v => Node.scalar v
  | Node.mapping c => Node.mapping (sortContent (sortTreeList c))
/-- The entries of a mapping with every child sorted. -/
def sortTreeList : List (String × Node) → List (String × Node)
  | [] => []
  | (k, t) :: rest => (k, t.sortTree) :: sortTreeList rest
end

/-- The call relation of `buildTree`: on the group `caller` the function
gets past the guard of line 31 and calls itself on the group `callee` at
line 76. -/
def CallsTo (sortAlpha : Bool) (callee caller : List propLine) : Prop :=
  leafValue caller = none ∧ ∃ p ∈ ordered caller sortAlpha, p.Lines = callee

/-- The list of the values when every element holds one, else `none`. -/
def collectSome {α : Type} : List (Option α) → Option (List α)
  | [] => some []
  | none :: _ => none
  | some a :: rest =>
    match collectSome rest with
    | none => none
    | some l => some (a :: l)

/-- The body of `buildTree` run with a bound on the nesting of calls: `none`
when the bound is used up before the recursion has ended. -/
def buildTreeBounded : Nat → List propLine → Bool → Option Node
  | 0, _, _ => none
  | fuel + 1, pairs, sortAlpha =>
    match leafValue pairs with
    | some v => some (Node.scalar v)
    | none =>
      match collectSome ((ordered pairs sortAlpha).map fun p =>
          match buildTreeBounded fuel p.Lines sortAlpha with
          | none => none
          | some t => some (p.Key, t)) with
      | none => none
      | some content => some (Node.mapping content)

/-! ## The grouping loops -/

theorem groupLines_eq_subGroup (k : String) (pairs : List propLine) :
    groupLines k pairs = subGroup k pairs := by
  induction pairs with
  | nil => rfl
  | cons pp rest ih =>
    obtain ⟨keys, v⟩ := pp
    cases keys with
    | nil => simpa [groupLines, subGroup] using ih
    | cons k0 ks =>
      by_cases h : k0 = k
      · simp [groupLines, subGroup, h] at ih ⊢
        exact ih
      · simp [groupLines, subGroup, h] at ih ⊢
        exact ih

theorem mem_groupLines {k : String} {pairs : List propLine} {q : propLine} :
    q ∈ groupLines k pairs ↔ (⟨k :: q.Keys, q.Value⟩ : propLine) ∈ pairs := by
  induction pairs with
  | nil => simp [groupLines]
  | cons pp rest ih =>
    obtain ⟨keys, v⟩ := pp
    obtain ⟨qk, qv⟩ := q
    cases keys with
    | nil => simp [groupLines, ih]
    | cons k0 ks =>
      by_cases h : k0 = k
      · subst h
        simp [groupLines, ih]
      · have h2 : ¬ k = k0 := fun e => h e.symm
        simp [groupLines, ih, h, h2]

theorem mem_firstSegs {k : String} {pairs : List propLine} :
    k ∈ firstSegs pairs ↔ ∃ p ∈ pairs, p.Keys.head? = some k := by
  simp [firstSegs, List.mem_filterMap]

theorem mem_firstOccurrences {x : String} {l : List String} :
    x ∈ firstOccurrences l ↔ x ∈ l := by
  induction l with
  | nil => simp [firstOccurrences]
  | cons y ys ih =>
    by_cases h : x = y
    · simp [firstOccurrences, h]
    · simp [firstOccurrences, h, ih]

theorem firstOccurrences_nodup (l : List String) : (firstOccurrences l).Nodup := by
  induction l with
  | nil => simp [firstOccurrences]
  | cons y ys ih =>
    simp only [firstOccurrences, List.nodup_cons]
    refine ⟨?_, ih.filter _⟩
    simp [List.mem_filter]

theorem collectLoop_eq (pairs rest : List propLine) (seen : List String) (acc : List pair) :
    collectLoop pairs rest seen acc =
      acc ++ ((firstOccurrences (firstSegs rest)).filter fun k => k ∉ seen).map
        fun k => ⟨k, groupLines k pairs⟩ := by
  induction rest generalizing seen acc with
  | nil => simp [collectLoop, firstSegs, firstOccurrences]
  | cons p rest ih =>
    obtain ⟨keys, v⟩ := p
    cases keys with
    | nil =>
      simp only [collectLoop]
      rw [ih]
      simp [firstSegs]
    | cons k ks =>
      have hseg : firstSegs (⟨k :: ks, v⟩ :: rest) = k :: firstSegs rest := by
        simp [firstSegs]
      simp only [collectLoop, hseg, firstOccurrences]
      by_cases hk : k ∈ seen
      · rw [if_pos hk, ih]
        congr 2
        rw [List.filter_cons_of_neg (by simpa using hk), List.filter_filter]
        apply List.filter_congr
        intro x _
        by_cases hx : x ∈ seen
        · simp [hx]
        · have : x ≠ k := fun e => hx (e ▸ hk)
          simp [hx, this]
      · rw [if_neg hk, ih]
        rw [List.filter_cons_of_pos (by simpa using hk), List.filter_filter]
        simp only [List.map_cons, List.append_assoc, List.singleton_append]
        congr 3
        apply List.filter_congr
        intro x _
        by_cases hx : x = k
        · simp [hx]
        · simp [hx]

theorem collect_eq (pairs : List propLine) :
    collect pairs =
      (firstOccurrences (firstSegs pairs)).map fun k => ⟨k, groupLines k pairs⟩ := by
  simp [collect, collectLoop_eq]

theorem collect_keys (pairs : List propLine) :
    (collect pairs).map pair.Key = firstOccurrences (firstSegs pairs) := by
  simp [collect_eq, Function.comp_def]

theorem collect_keys_nodup (pairs : List propLine) :
    ((collect pairs).map pair.Key).Nodup := by
  rw [collect_keys]; exact firstOccurrences_nodup _

theorem mem_collect {pairs : List propLine} {p : pair} :
    p ∈ collect pairs ↔ p.Key ∈ firstSegs pairs ∧ p.Lines = groupLines p.Key pairs := by
  obtain ⟨k, ls⟩ := p
  simp only [collect_eq, List.mem_map, mem_firstOccurrences, pair.mk.injEq]
  constructor
  · rintro ⟨a, ha, rfl, rfl⟩
    exact ⟨ha, rfl⟩
  · rintro ⟨h1, h2⟩
    exact ⟨k, h1, rfl, h2.symm⟩

theorem ordered_perm (pairs : List propLine) (sortAlpha : Bool) :
    (ordered pairs sortAlpha).Perm (collect pairs) := by
  unfold ordered
  split
  · exact List.perm_insertionSort _ _
  · exact List.Perm.refl _

theorem mem_ordered {pairs : List propLine} {sortAlpha : Bool} {p : pair} :
    p ∈ ordered pairs sortAlpha ↔
      p.Key ∈ firstSegs pairs ∧ p.Lines = groupLines p.Key pairs := by
  rw [(ordered_perm pairs sortAlpha).mem_iff, mem_collect]

theorem ordered_keys_nodup (pairs : List propLine) (sortAlpha : Bool) :
    ((ordered pairs sortAlpha).map pair.Key).Nodup :=
  ((ordered_perm pairs sortAlpha).map pair.Key).nodup_iff.mpr (collect_keys_nodup pairs)

/-! ## Fuel and the recursion of the source -/

theorem length_le_depth {pairs : List propLine} {p : propLine} (h : p ∈ pairs) :
    p.Keys.length ≤ depth pairs := by
  induction pairs with
  | nil => cases h
  | cons q rest ih =>
    simp only [depth]
    rcases List.mem_cons.mp h with rfl | h
    · exact le_max_left _ _
    · exact le_trans (ih h) (le_max_right _ _)

theorem depth_lt_iff {pairs : List propLine} {n : Nat} :
    depth pairs < n ↔ 0 < n ∧ ∀ p ∈ pairs, p.Keys.length < n := by
  induction pairs with
  | nil => simp [depth]
  | cons q rest ih =>
    simp only [depth, max_lt_iff, ih, List.mem_cons, forall_eq_or_imp]
    tauto

theorem depth_groupLines_lt {k : String} {pairs : List propLine}
    (hk : k ∈ firstSegs pairs) : depth (groupLines k pairs) < depth pairs := by
  obtain ⟨p, hp, hhead⟩ := mem_firstSegs.mp hk
  have hpos : 0 < depth pairs := by
    have := length_le_depth hp
    cases hkeys : p.Keys with
    | nil => rw [hkeys] at hhead; cases hhead
    | cons a as => rw [hkeys] at this; simp at this; omega
  refine depth_lt_iff.mpr ⟨hpos, fun q hq => ?_⟩
  have := length_le_depth (mem_groupLines.mp hq)
  simp at this
  omega

theorem ordered_depth_lt {pairs : List propLine} {sortAlpha : Bool} {p : pair}
    (h : p ∈ ordered pairs sortAlpha) : depth p.Lines < depth pairs := by
  obtain ⟨h1, h2⟩ := mem_ordered.mp h
  rw [h2]
  exact depth_groupLines_lt h1

theorem buildTreeFuel_congr (n m : Nat) (pairs : List propLine) (sortAlpha : Bool)
    (hn : depth pairs < n) (hm : depth pairs < m) :
    buildTreeFuel n pairs sortAlpha = buildTreeFuel m pairs sortAlpha := by
  induction n generalizing m pairs with
  | zero => omega
  | succ n ih =>
    cases m with
    | zero => omega
    | succ m =>
      simp only [buildTreeFuel]
      cases leafValue pairs with
      | some v => rfl
      | none =>
        simp only [Node.mapping.injEq]
        apply List.map_congr_left
        intro p hp
        have := ordered_depth_lt hp
        rw [ih m p.Lines (by omega) (by omega)]

theorem buildTreeFuel_stable (n : Nat) (pairs : List propLine) (sortAlpha : Bool)
    (hn : depth pairs < n) :
    buildTreeFuel n pairs sortAlpha = buildTree pairs sortAlpha :=
  buildTreeFuel_congr n (depth pairs + 1) pairs sortAlpha hn (Nat.lt_succ_self _)

/-- The recursion of main.go lines 29-80, free of fuel. -/
theorem buildTree_eq (pairs : List propLine) (sortAlpha : Bool) :
    buildTree pairs sortAlpha =
      match leafValue pairs with
      | some v => Node.scalar v
      | none =>
        Node.mapping ((ordered pairs sortAlpha).map fun p =>
          (p.Key, buildTree p.Lines sortAlpha)) := by
  conv_lhs => unfold buildTree
  simp only [buildTreeFuel]
  cases leafValue pairs with
  | some v => rfl
  | none =>
    simp only [Node.mapping.injEq]
    apply List.map_congr_left
    intro p hp
    rw [buildTreeFuel_stable _ _ _ (ordered_depth_lt hp)]

theorem leafValue_eq_some {pairs : List propLine} {v : String} :
    leafValue pairs = some v ↔ pairs = [⟨[], v⟩] := by
  constructor
  · intro h
    match pairs, h with
    | [p], h =>
      obtain ⟨keys, w⟩ := p
      cases keys with
      | nil => simp [leafValue] at h; simp [h]
      | cons a as => simp [leafValue] at h
    | [], h => simp [leafValue] at h
    | _ :: _ :: _, h => simp [leafValue] at h
  · rintro rfl
    simp [leafValue]

theorem leafValue_eq_none {pairs : List propLine} :
    leafValue pairs = none ↔ ∀ v, pairs ≠ [⟨[], v⟩] := by
  rw [← Option.not_isSome_iff_eq_none, Option.isSome_iff_exists]
  simp [leafValue_eq_some]

theorem buildTree_leaf (v : String) (sortAlpha : Bool) :
    buildTree [⟨[], v⟩] sortAlpha = Node.scalar v := by
  rw [buildTree_eq, leafValue_eq_some.mpr rfl]

theorem buildTree_mapping {pairs : List propLine} (sortAlpha : Bool)
    (h : leafValue pairs = none) :
    buildTree pairs sortAlpha =
      Node.mapping ((ordered pairs sortAlpha).map fun p =>
        (p.Key, buildTree p.Lines sortAlpha)) := by
  rw [buildTree_eq, h]

theorem leafValue_none_of_firstSeg {pairs : List propLine} {k : String}
    (hk : k ∈ firstSegs pairs) : leafValue pairs = none := by
  rw [leafValue_eq_none]
  rintro v rfl
  simp [firstSegs] at hk

/-! ## Entries of the mapping returned by buildTree -/

theorem mem_content {pairs : List propLine} {sortAlpha : Bool} {s : String} {c : Node} :
    (s, c) ∈ (ordered pairs sortAlpha).map (fun p => (p.Key, buildTree p.Lines sortAlpha)) ↔
      s ∈ firstSegs pairs ∧ c = buildTree (groupLines s pairs) sortAlpha := by
  simp only [List.mem_map, Prod.mk.injEq, mem_ordered]
  constructor
  · rintro ⟨p, ⟨h1, h2⟩, rfl, rfl⟩
    exact ⟨h1, by rw [h2]⟩
  · rintro ⟨h1, rfl⟩
    exact ⟨⟨s, groupLines s pairs⟩, ⟨h1, rfl⟩, rfl, rfl⟩

theorem content_keys (pairs : List propLine) (sortAlpha : Bool) :
    keysOf ((ordered pairs sortAlpha).map fun p => (p.Key, buildTree p.Lines sortAlpha)) =
      (ordered pairs sortAlpha).map pair.Key := by
  simp [keysOf, Function.comp_def]

theorem lookupKey_eq_some_iff {c : List (String × Node)} (nd : (keysOf c).Nodup)
    {s : String} {v : Node} : lookupKey s c = some v ↔ (s, v) ∈ c := by
  induction c with
  | nil => simp [lookupKey]
  | cons kv rest ih =>
    obtain ⟨k, w⟩ := kv
    simp only [keysOf, List.map_cons, List.nodup_cons] at nd
    by_cases h : k = s
    · subst h
      simp only [lookupKey, if_true, Option.some.injEq, List.mem_cons, Prod.mk.injEq, true_and]
      constructor
      · intro e; exact Or.inl e.symm
      · rintro (e | hmem)
        · exact e.symm
        · exact absurd (List.mem_map_of_mem Prod.fst hmem) nd.1
    · have h2 : ¬ s = k := fun e => h e.symm
      simp only [lookupKey, if_neg h, List.mem_cons, Prod.mk.injEq, h2, false_and, false_or]
      exact ih nd.2

theorem buildTree_eq_scalar {pairs : List propLine} {sortAlpha : Bool} {v : String} :
    buildTree pairs sortAlpha = Node.scalar v ↔ pairs = [⟨[], v⟩] := by
  rw [buildTree_eq]
  cases h : leafValue pairs with
  | some w =>
    simp only [Node.scalar.injEq]
    constructor
    · rintro rfl; exact leafValue_eq_some.mp h
    · intro e
      have := leafValue_eq_some.mpr e
      rw [h] at this
      exact Option.some.inj this
  | none =>
    constructor
    · intro e; cases e
    · intro e; exact absurd e (leafValue_eq_none.mp h v)

theorem buildTree_eq_mapping {pairs : List propLine} {sortAlpha : Bool}
    {content : List (String × Node)} (h : buildTree pairs sortAlpha = Node.mapping content) :
    leafValue pairs = none ∧
      content = (ordered pairs sortAlpha).map fun p => (p.Key, buildTree p.Lines sortAlpha) := by
  rw [buildTree_eq] at h
  cases hl : leafValue pairs with
  | some w => rw [hl] at h; cases h
  | none =>
    rw [hl] at h
    simp only [Node.mapping.injEq] at h
    exact ⟨rfl, h.symm⟩

theorem child_buildTree {pairs : List propLine} (sortAlpha : Bool) {s : String}
    (hs : s ∈ firstSegs pairs) :
    (buildTree pairs sortAlpha).child s = some (buildTree (groupLines s pairs) sortAlpha) := by
  rw [buildTree_mapping sortAlpha (leafValue_none_of_firstSeg hs)]
  simp only [Node.child]
  rw [lookupKey_eq_some_iff (by rw [content_keys]; exact ordered_keys_nodup _ _)]
  exact mem_content.mpr ⟨hs, rfl⟩

theorem at_buildTree {pairs : List propLine} {sortAlpha : Bool} {P : List String} {n : Node}
    (h : (buildTree pairs sortAlpha).At P n) :
    n = buildTree (groupAt pairs P) sortAlpha := by
  induction P generalizing pairs with
  | nil =>
    generalize hb : buildTree pairs sortAlpha = t at h
    cases h
    exact hb.symm
  | cons k P ih =>
    rw [buildTree_eq] at h
    cases hl : leafValue pairs with
    | some w => rw [hl] at h; cases h
    | none =>
      rw [hl] at h
      cases h with
      | step hmem hrest =>
        obtain ⟨_, rfl⟩ := mem_content.mp hmem
        simp only [groupAt, ← groupLines_eq_subGroup]
        exact ih hrest

theorem mem_groupAt {pairs : List propLine} {P : List String} {q : propLine} :
    q ∈ groupAt pairs P ↔ (⟨P ++ q.Keys, q.Value⟩ : propLine) ∈ pairs := by
  induction P generalizing pairs with
  | nil => simp [groupAt]
  | cons k P ih =>
    simp only [groupAt, ih, ← groupLines_eq_subGroup, mem_groupLines, List.cons_append]

theorem noCollision_nil_mem {pairs : List propLine} {v : String}
    (h : NoCollision pairs) (hv : (⟨[], v⟩ : propLine) ∈ pairs) : pairs = [⟨[], v⟩] := by
  cases pairs with
  | nil => cases hv
  | cons a rest =>
    have h' := List.pairwise_cons.mp h
    rcases List.mem_cons.mp hv with e | hmem
    · subst e
      cases rest with
      | nil => rfl
      | cons b rest2 =>
        exact absurd (List.nil_prefix) (h'.1 b (List.mem_cons_self _ _)).1
    · exact absurd (List.nil_prefix) (h'.1 _ hmem).2

theorem noCollision_groupLines {pairs : List propLine} (k : String)
    (h : NoCollision pairs) : NoCollision (groupLines k pairs) := by
  induction pairs with
  | nil => simp [groupLines, NoCollision]
  | cons pp rest ih =>
    have h' := List.pairwise_cons.mp h
    obtain ⟨keys, v⟩ := pp
    cases keys with
    | nil => simpa [groupLines] using ih h'.2
    | cons k0 ks =>
      by_cases hk : k0 = k
      · subst hk
        simp only [groupLines, if_true]
        refine List.pairwise_cons.mpr ⟨fun q hq => ?_, ih h'.2⟩
        have := h'.1 _ (mem_groupLines.mp hq)
        simpa [List.cons_prefix_cons] using this
      · simp only [groupLines, if_neg hk]
        exact ih h'.2

theorem follow_of_mem (sortAlpha : Bool) (keys : List String) (v : String)
    (pairs : List propLine) (h : NoCollision pairs) (hp : (⟨keys, v⟩ : propLine) ∈ pairs) :
    (buildTree pairs sortAlpha).follow keys = some (Node.scalar v) := by
  induction keys generalizing pairs with
  | nil =>
    rw [noCollision_nil_mem h hp, buildTree_leaf]
    rfl
  | cons k ks ih =>
    have hk : k ∈ firstSegs pairs := mem_firstSegs.mpr ⟨_, hp, rfl⟩
    simp only [Node.follow, child_buildTree sortAlpha hk]
    exact ih _ (noCollision_groupLines k h) (mem_groupLines.mpr hp)

theorem keyLE_iff (a b : pair) : keyLE a b ↔ a.Key ≤ b.Key := by
  unfold keyLE
  rw [← not_lt]
  exact not_congr String.lt_iff_toList_lt.symm

theorem sortPairs_sorted (l : List pair) :
    ((sortPairs l).map pair.Key).Sorted (fun a b => a ≤ b) := by
  haveI : IsTotal pair keyLE :=
    ⟨fun a b => by simp only [keyLE_iff]; exact le_total _ _⟩
  haveI : IsTrans pair keyLE :=
    ⟨fun a b c => by simp only [keyLE_iff]; exact le_trans⟩
  have h := List.sorted_insertionSort keyLE l
  unfold sortPairs
  unfold List.Sorted at h ⊢
  rw [List.pairwise_map]
  exact h.imp (fun {a b} hab => (keyLE_iff a b).mp hab)

theorem firstSegs_filter (pairs : List propLine) :
    firstSegs (pairs.filter fun p => p.Keys ≠ []) = firstSegs pairs := by
  induction pairs with
  | nil => rfl
  | cons p rest ih =>
    obtain ⟨keys, v⟩ := p
    cases keys with
    | nil => simpa [firstSegs] using ih
    | cons a as => simpa [firstSegs] using ih

theorem groupLines_filter (k : String) (pairs : List propLine) :
    groupLines k (pairs.filter fun p => p.Keys ≠ []) = groupLines k pairs := by
  induction pairs with
  | nil => rfl
  | cons p rest ih =>
    obtain ⟨keys, v⟩ := p
    cases keys with
    | nil => simpa [groupLines] using ih
    | cons a as =>
      by_cases h : a = k
      · simp [groupLines, h] at ih ⊢
        exact ih
      · simp [groupLines, h] at ih ⊢
        exact ih

theorem ordered_filter (pairs : List propLine) (sortAlpha : Bool) :
    ordered (pairs.filter fun p => p.Keys ≠ []) sortAlpha = ordered pairs sortAlpha := by
  have : collect (pairs.filter fun p => p.Keys ≠ []) = collect pairs := by
    rw [collect_eq, collect_eq, firstSegs_filter]
    simp only [groupLines_filter]
  unfold ordered
  rw [this]

/-! ## The tree builder: claims -/

/-- C1: for both ordering modes and every segment `s` that is the first segment
of some entry (so that some entry has a non-empty path), `buildTree` returns a
mapping, the child stored under `s` in it (by lookup, and as any entry with key
`s`) is `buildTree`, in the same mode, of the sub-sequence of the entries whose
first segment is `s`, in their original order and with that segment stripped. -/
theorem buildTree_child_eq_subGroup (pairs : List propLine) (sortAlpha : Bool) (s : String)
    (hs : ∃ p ∈ pairs, p.Keys.head? = some s) :
    ∃ content, buildTree pairs sortAlpha = Node.mapping content ∧
      lookupKey s content = some (buildTree (subGroup s pairs) sortAlpha) ∧
      ∀ c, (s, c) ∈ content → c = buildTree (subGroup s pairs) sortAlpha := by
  have hk : s ∈ firstSegs pairs := mem_firstSegs.mpr hs
  refine ⟨_, buildTree_mapping sortAlpha (leafValue_none_of_firstSeg hk), ?_, ?_⟩
  · rw [lookupKey_eq_some_iff (by rw [content_keys]; exact ordered_keys_nodup _ _)]
    exact mem_content.mpr ⟨hk, by rw [groupLines_eq_subGroup]⟩
  · intro c hc
    rw [← groupLines_eq_subGroup]
    exact (mem_content.mp hc).2

theorem buildTree_child_eq_subGroup_witness :
    (∃ p ∈ ([⟨["d"], "3"⟩, ⟨["a", "b"], "1"⟩, ⟨["a", "c"], "2"⟩] : List propLine),
        p.Keys.head? = some "a") ∧
    ∃ content,
      buildTree [⟨["d"], "3"⟩, ⟨["a", "b"], "1"⟩, ⟨["a", "c"], "2"⟩] true
        = Node.mapping content ∧
      lookupKey "a" content = some (buildTree
        (subGroup "a" [⟨["d"], "3"⟩, ⟨["a", "b"], "1"⟩, ⟨["a", "c"], "2"⟩]) true) ∧
      ∀ c, ("a", c) ∈ content → c = buildTree
        (subGroup "a" [⟨["d"], "3"⟩, ⟨["a", "b"], "1"⟩, ⟨["a", "c"], "2"⟩]) true :=
  ⟨⟨⟨["a", "b"], "1"⟩, by decide, by decide⟩,
   buildTree_child_eq_subGroup _ true "a" ⟨⟨["a", "b"], "1"⟩, by decide, by decide⟩⟩

/-- C2: when no entry's path is equal to or a prefix of another entry's path,
then for both ordering modes and every entry (P, V), following the segments of
P from the root of the tree, one mapping lookup per segment, reaches a scalar
node whose value is V. -/
theorem buildTree_follow_entry (pairs : List propLine) (sortAlpha : Bool)
    (h : NoCollision pairs) (p : propLine) (hp : p ∈ pairs) :
    (buildTree pairs sortAlpha).follow p.Keys = some (Node.scalar p.Value) :=
  follow_of_mem sortAlpha p.Keys p.Value pairs h hp

theorem buildTree_follow_entry_witness :
    NoCollision [⟨["d"], "3"⟩, ⟨["a", "b"], "1"⟩, ⟨["a", "c"], "2"⟩] ∧
    (⟨["a", "c"], "2"⟩ : propLine) ∈
      ([⟨["d"], "3"⟩, ⟨["a", "b"], "1"⟩, ⟨["a", "c"], "2"⟩] : List propLine) ∧
    (buildTree [⟨["d"], "3"⟩, ⟨["a", "b"], "1"⟩, ⟨["a", "c"], "2"⟩] false).follow ["a", "c"]
      = some (Node.scalar "2") :=
  ⟨by unfold NoCollision; decide, by decide,
   buildTree_follow_entry _ false (by unfold NoCollision; decide) ⟨["a", "c"], "2"⟩ (by decide)⟩

/-- C3: in original mode (sortAlpha = false), for every mapping node found in
the tree at the end of any key path `P`, the sequence of its sibling segments
is the list of first segments of the non-empty-path entries of its group (the
entries below `P`) with later duplicates removed. -/
theorem buildTree_original_order (pairs : List propLine) (P : List String)
    (content : List (String × Node))
    (h : (buildTree pairs false).At P (Node.mapping content)) :
    keysOf content = firstOccurrences (firstSegs (groupAt pairs P)) := by
  have h2 := buildTree_eq_mapping (at_buildTree h).symm
  rw [h2.2, content_keys]
  simp only [ordered, Bool.false_eq_true, if_false]
  exact collect_keys _

theorem buildTree_original_order_witness :
    (buildTree [⟨["d"], "3"⟩, ⟨["a", "b"], "1"⟩] false).At []
      (Node.mapping [("d", Node.scalar "3"), ("a", Node.mapping [("b", Node.scalar "1")])]) ∧
    keysOf [("d", Node.scalar "3"), ("a", Node.mapping [("b", Node.scalar "1")])]
      = firstOccurrences (firstSegs (groupAt [⟨["d"], "3"⟩, ⟨["a", "b"], "1"⟩] [])) ∧
    firstOccurrences (firstSegs (groupAt [⟨["d"], "3"⟩, ⟨["a", "b"], "1"⟩] [])) = ["d", "a"] :=
  ⟨Node.At.here _,
   buildTree_original_order [⟨["d"], "3"⟩, ⟨["a", "b"], "1"⟩] [] _ (Node.At.here _),
   by decide⟩

/-- C4: in alphabetical mode (sortAlpha = true), every mapping node found in
the tree at the end of any key path has its sibling segments in non-decreasing
lexicographic order. -/
theorem buildTree_alpha_sorted (pairs : List propLine) (P : List String)
    (content : List (String × Node))
    (h : (buildTree pairs true).At P (Node.mapping content)) :
    (keysOf content).Sorted (fun a b => a ≤ b) := by
  have h2 := buildTree_eq_mapping (at_buildTree h).symm
  rw [h2.2, content_keys]
  simp only [ordered, if_true]
  exact sortPairs_sorted _

theorem buildTree_alpha_sorted_witness :
    (buildTree [⟨["d"], "3"⟩, ⟨["a", "b"], "1"⟩] true).At []
      (Node.mapping [("a", Node.mapping [("b", Node.scalar "1")]), ("d", Node.scalar "3")]) ∧
    (keysOf [("a", Node.mapping [("b", Node.scalar "1")]), ("d", Node.scalar "3")]).Sorted
      (fun a b => a ≤ b) ∧
    keysOf [("a", Node.mapping [("b", Node.scalar "1")]), ("d", Node.scalar "3")] = ["a", "d"] :=
  ⟨Node.At.here _,
   buildTree_alpha_sorted [⟨["d"], "3"⟩, ⟨["a", "b"], "1"⟩] [] _ (Node.At.here _), rfl⟩

/-- C5: for both ordering modes, every mapping node found anywhere in the tree
has pairwise-distinct sibling segments: no key appears twice under one mapping. -/
theorem buildTree_keys_nodup (pairs : List propLine) (sortAlpha : Bool) (P : List String)
    (content : List (String × Node))
    (h : (buildTree pairs sortAlpha).At P (Node.mapping content)) :
    (keysOf content).Nodup := by
  have h2 := buildTree_eq_mapping (at_buildTree h).symm
  rw [h2.2, content_keys]
  exact ordered_keys_nodup _ _

theorem buildTree_keys_nodup_witness :
    (buildTree [⟨["a", "b"], "1"⟩, ⟨["d"], "3"⟩, ⟨["a", "c"], "2"⟩, ⟨["a", "b", "e"], "4"⟩]
        false).At ["a"]
      (Node.mapping [("b", Node.mapping [("e", Node.scalar "4")]), ("c", Node.scalar "2")]) ∧
    (keysOf [("b", Node.mapping [("e", Node.scalar "4")]), ("c", Node.scalar "2")]).Nodup :=
  ⟨Node.At.step (List.Mem.head _) (Node.At.here _),
   buildTree_keys_nodup
     [⟨["a", "b"], "1"⟩, ⟨["d"], "3"⟩, ⟨["a", "c"], "2"⟩, ⟨["a", "b", "e"], "4"⟩] false ["a"] _
     (Node.At.step (List.Mem.head _) (Node.At.here _))⟩

theorem at_scalar_mem {pairs : List propLine} {sortAlpha : Bool} {P : List String}
    {V : String} (h : (buildTree pairs sortAlpha).At P (Node.scalar V)) :
    (⟨P, V⟩ : propLine) ∈ pairs := by
  have h2 := buildTree_eq_scalar.mp (at_buildTree h).symm
  have h3 : (⟨[], V⟩ : propLine) ∈ groupAt pairs P := by rw [h2]; exact List.mem_singleton_self _
  simpa using mem_groupAt.mp h3

theorem leafValue_filter (pairs : List propLine) :
    leafValue (pairs.filter fun p => p.Keys ≠ []) = none := by
  rw [leafValue_eq_none]
  intro v e
  have hmem : (⟨[], v⟩ : propLine) ∈ pairs.filter fun p => p.Keys ≠ [] := by
    rw [e]; exact List.mem_singleton_self _
  simpa using (List.mem_filter.mp hmem).2

theorem leafValue_of_two_le {pairs : List propLine} (h : 2 ≤ pairs.length) :
    leafValue pairs = none := by
  rw [leafValue_eq_none]
  rintro v rfl
  simp at h

/-- C6: `buildTree` returns a scalar node exactly when the group has exactly
one member and that member's path is empty, and the scalar then holds that
member's value; for every other group it returns a mapping. -/
theorem buildTree_scalar_iff (pairs : List propLine) (sortAlpha : Bool) :
    (∀ v, buildTree pairs sortAlpha = Node.scalar v ↔
      ∃ p, pairs = [p] ∧ p.Keys = [] ∧ p.Value = v) ∧
    ((¬ ∃ p, pairs = [p] ∧ p.Keys = []) →
      ∃ content, buildTree pairs sortAlpha = Node.mapping content) := by
  constructor
  · intro v
    rw [buildTree_eq_scalar]
    constructor
    · rintro rfl
      exact ⟨_, rfl, rfl, rfl⟩
    · rintro ⟨⟨keys, w⟩, rfl, hk, hv⟩
      simp only at hk hv
      rw [hk, hv]
  · intro h
    refine ⟨_, buildTree_mapping sortAlpha ?_⟩
    rw [leafValue_eq_none]
    rintro v rfl
    exact h ⟨_, rfl, rfl⟩

theorem buildTree_scalar_iff_witness :
    (¬ ∃ p : propLine, [(⟨["a"], "1"⟩ : propLine), ⟨[], "2"⟩] = [p] ∧ p.Keys = []) ∧
    (∃ content, buildTree [⟨["a"], "1"⟩, ⟨[], "2"⟩] false = Node.mapping content) ∧
    (buildTree [⟨[], "2"⟩] false = Node.scalar "2" ↔
      ∃ p : propLine, [(⟨[], "2"⟩ : propLine)] = [p] ∧ p.Keys = [] ∧ p.Value = "2") :=
  ⟨by simp,
   (buildTree_scalar_iff [⟨["a"], "1"⟩, ⟨[], "2"⟩] false).2 (by simp),
   (buildTree_scalar_iff [⟨[], "2"⟩] false).1 "2"⟩

/-- C7: for every group with two or more members and both ordering modes,
`buildTree` of the group equals `buildTree` of the group with all empty-path
members removed; every scalar of the result stands at a non-empty key path and
holds the value of the entry with that path, so nothing in the result comes
from an empty-path member. -/
theorem buildTree_drops_empty_paths (pairs : List propLine) (sortAlpha : Bool)
    (h : 2 ≤ pairs.length) :
    buildTree pairs sortAlpha = buildTree (pairs.filter fun p => p.Keys ≠ []) sortAlpha ∧
    ∀ P V, (buildTree pairs sortAlpha).At P (Node.scalar V) →
      P ≠ [] ∧ (⟨P, V⟩ : propLine) ∈ pairs.filter fun p => p.Keys ≠ [] := by
  have hl := leafValue_of_two_le h
  constructor
  · rw [buildTree_mapping sortAlpha hl, buildTree_mapping sortAlpha (leafValue_filter pairs),
      ordered_filter]
  · intro P V hat
    have hne : P ≠ [] := by
      rintro rfl
      have := buildTree_eq_scalar.mp (at_buildTree hat).symm
      simp only [groupAt] at this
      rw [this] at h
      simp at h
    refine ⟨hne, List.mem_filter.mpr ⟨at_scalar_mem hat, ?_⟩⟩
    simpa using hne

theorem buildTree_drops_empty_paths_witness :
    2 ≤ ([⟨[], "1"⟩, ⟨["b"], "2"⟩] : List propLine).length ∧
    buildTree [⟨[], "1"⟩, ⟨["b"], "2"⟩] false =
      buildTree (([⟨[], "1"⟩, ⟨["b"], "2"⟩] : List propLine).filter fun p => p.Keys ≠ []) false ∧
    buildTree [⟨[], "1"⟩, ⟨["b"], "2"⟩] false = Node.mapping [("b", Node.scalar "2")] ∧
    buildTree [⟨["a"], "1"⟩, ⟨["a", "b"], "2"⟩] false =
      Node.mapping [("a", Node.mapping [("b", Node.scalar "2")])] :=
  ⟨by decide,
   (buildTree_drops_empty_paths [⟨[], "1"⟩, ⟨["b"], "2"⟩] false (by decide)).1, rfl, rfl⟩

/-- C8: values are copied and never invented: for both ordering modes, every
scalar node found in the tree at the end of a key path P holds a value V such
that (P, V) is an entry of the input sequence. -/
theorem buildTree_scalar_from_entry (pairs : List propLine) (sortAlpha : Bool)
    (P : List String) (V : String)
    (h : (buildTree pairs sortAlpha).At P (Node.scalar V)) :
    (⟨P, V⟩ : propLine) ∈ pairs :=
  at_scalar_mem h

theorem buildTree_scalar_from_entry_witness :
    (buildTree [⟨["d"], "3"⟩, ⟨["a", "b"], " 1 "⟩] true).At ["a", "b"] (Node.scalar " 1 ") ∧
    (⟨["a", "b"], " 1 "⟩ : propLine) ∈ ([⟨["d"], "3"⟩, ⟨["a", "b"], " 1 "⟩] : List propLine) :=
  ⟨Node.At.step (List.Mem.head _) (Node.At.step (List.Mem.head _) (Node.At.here _)),
   buildTree_scalar_from_entry [⟨["d"], "3"⟩, ⟨["a", "b"], " 1 "⟩] true ["a", "b"] " 1 "
     (Node.At.step (List.Mem.head _) (Node.At.step (List.Mem.head _) (Node.At.here _)))⟩

/-! ## The pretty post-pass -/

theorem prettyLoop_eq (rest : List String) (cnt : Nat) (acc : List String) :
    prettyLoop rest cnt acc = acc ++ blocksFrom (decide (0 < cnt)) rest := by
  induction rest generalizing cnt acc with
  | nil => simp [prettyLoop, blocksFrom]
  | cons line rest ih =>
    by_cases ht : isTop line = true
    · by_cases hc : 0 < cnt
      · have h1 : cnt + 1 > 1 := by omega
        simp [prettyLoop, blocksFrom, ht, hc, h1, ih]
      · have h0 : cnt = 0 := by omega
        subst h0
        simp [prettyLoop, blocksFrom, ht, ih]
    · simp [prettyLoop, blocksFrom, ht, ih]

theorem prettyPass_eq_blocksFrom (lines : List String) :
    prettyPass lines = blocksFrom false lines := by
  simp [prettyPass, prettyLoop_eq]

theorem join_blocks_eq (pre rest : List String) :
    ((rest.enumFrom pre.length).map fun p => spacedBlock (pre ++ rest) p.1 p.2).flatten =
      blocksFrom (pre.any fun l => isTop l) rest := by
  induction rest generalizing pre with
  | nil => simp [blocksFrom]
  | cons line rest ih =>
    have hpre := ih (pre ++ [line])
    simp only [List.length_append, List.length_singleton, List.append_assoc,
      List.singleton_append, List.any_append, List.any_cons, List.any_nil, Bool.or_false] at hpre
    rw [List.enumFrom_cons, List.map_cons, List.flatten_cons, hpre]
    simp only [blocksFrom, spacedBlock, List.take_left']
    by_cases ht : isTop line = true
    · by_cases hs : (pre.any fun l => isTop l) = true
      · simp [ht, hs]
      · simp [ht, hs]
    · simp [ht]

theorem join_spacedBlocks (lines : List String) :
    (spacedBlocks lines).flatten = blocksFrom false lines := by
  have := join_blocks_eq [] lines
  simpa [spacedBlocks, List.enum] using this

theorem spacedBlock_getLast (lines : List String) (i : Nat) (line : String) :
    (spacedBlock lines i line).getLast? = some line := by
  unfold spacedBlock
  split <;> simp

theorem sublist_blocksFrom (seen : Bool) (lines : List String) :
    lines.Sublist (blocksFrom seen lines) := by
  induction lines generalizing seen with
  | nil => simp [blocksFrom]
  | cons line rest ih =>
    unfold blocksFrom
    split
    · split
      · exact ((ih true).cons₂ line).cons ""
      · exact (ih true).cons₂ line
    · exact (ih seen).cons₂ line

theorem length_blocksFrom (seen : Bool) (lines : List String) :
    (blocksFrom seen lines).length =
      lines.length + (if seen then topCount lines else topCount lines - 1) := by
  induction lines generalizing seen with
  | nil => simp [blocksFrom, topCount]
  | cons line rest ih =>
    by_cases ht : isTop line = true
    · cases seen <;> simp [blocksFrom, topCount, ht, ih, List.countP_cons] <;> omega
    · cases seen <;> simp [blocksFrom, topCount, ht, ih, List.countP_cons] <;> omega

theorem isTop_iff (line : String) :
    isTop line = true ↔ TrimSpace line = line ∧ HasSuffix line ":" = true := by
  unfold isTop
  simp only [Bool.and_eq_true, decide_eq_true_eq]
  constructor
  · rintro ⟨⟨h1, h2⟩, _⟩
    rw [h1] at h2
    exact ⟨h1, h2⟩
  · rintro ⟨h1, h2⟩
    rw [h1]
    refine ⟨⟨rfl, h2⟩, ?_⟩
    obtain ⟨cs⟩ := line
    cases cs with
    | nil => simp [HasSuffix] at h2
    | cons c cs => simp [String.length]

/-- C9: the pretty post-pass returns the input lines in their order, line `i`
being preceded by exactly one inserted empty line when it is classified
top-level key and is not the first such line, and by nothing otherwise: the
output is the concatenation of the blocks `spacedBlock`, one per input line,
each block ends with its input line unchanged (so dropping the inserted empty
lines gives back the input), and the input is a sub-list of the output.  A
line is classified top-level key exactly when trimming white space leaves it
unchanged and it ends with a colon. -/
theorem prettyPass_spec (lines : List String) :
    prettyPass lines = (spacedBlocks lines).flatten ∧
    (spacedBlocks lines).map List.getLast? = lines.map some ∧
    lines.Sublist (prettyPass lines) ∧
    (∀ line, isTop line = true ↔ TrimSpace line = line ∧ HasSuffix line ":" = true) := by
  refine ⟨?_, ?_, ?_, isTop_iff⟩
  · rw [prettyPass_eq_blocksFrom, join_spacedBlocks]
  · apply List.ext_getElem?
    intro n
    simp only [spacedBlocks, List.getElem?_map, List.getElem?_enum, List.enum]
    cases h : lines[n]? with
    | none => simp [h]
    | some l => simp [h, spacedBlock_getLast]
  · rw [prettyPass_eq_blocksFrom]
    exact sublist_blocksFrom false lines

/-- C10: the number of blank lines the pretty post-pass inserts (length of
the output minus length of the input) is the number of top-level keys minus
one when there is at least one top-level key, and zero when there are zero or
one top-level keys; the output is never shorter than the input. -/
theorem prettyPass_inserted_count (lines : List String) :
    lines.length ≤ (prettyPass lines).length ∧
    (1 ≤ topCount lines →
      (prettyPass lines).length - lines.length = topCount lines - 1) ∧
    (topCount lines ≤ 1 → (prettyPass lines).length - lines.length = 0) := by
  have h := length_blocksFrom false lines
  rw [← prettyPass_eq_blocksFrom] at h
  simp only [Bool.false_eq_true, if_false] at h
  refine ⟨by omega, fun _ => by omega, fun _ => by omega⟩

theorem prettyPass_inserted_count_witness :
    topCount ["a:", "  b: \"1\"", "c:", "  e: \"2\"", "d:"] = 3 ∧
    (prettyPass ["a:", "  b: \"1\"", "c:", "  e: \"2\"", "d:"]).length
      - (["a:", "  b: \"1\"", "c:", "  e: \"2\"", "d:"] : List String).length = 3 - 1 ∧
    topCount ["a:", "  b: \"1\""] ≤ 1 ∧
    (prettyPass ["a:", "  b: \"1\""]).length - (["a:", "  b: \"1\""] : List String).length = 0 :=
  ⟨by decide,
   (prettyPass_inserted_count ["a:", "  b: \"1\"", "c:", "  e: \"2\"", "d:"]).2.1 (by decide),
   by decide,
   (prettyPass_inserted_count ["a:", "  b: \"1\""]).2.2 (by decide)⟩

/-! ## White space trimming and cutting -/

theorem dropWhile_append_cons {α : Type} (p : α → Bool) (l : List α) (x : α) (r : List α)
    (hx : p x = false) : (l ++ x :: r).dropWhile p = l.dropWhile p ++ x :: r := by
  induction l with
  | nil => simp [List.dropWhile, hx]
  | cons a l ih =>
    by_cases ha : p a = true
    · simp [List.dropWhile, ha, ih]
    · simp [List.dropWhile, ha]

theorem dropWhile_of_all {α : Type} (p : α → Bool) (l : List α)
    (h : ∀ x ∈ l, p x = true) : l.dropWhile p = [] := by
  induction l with
  | nil => rfl
  | cons a l ih =>
    have ha : p a = true := h a (List.mem_cons_self _ _)
    simp only [List.dropWhile, ha]
    exact ih fun x hx => h x (List.mem_cons_of_mem _ hx)

theorem dropEnd_append_cons {α : Type} (p : α → Bool) (l : List α) (x : α) (r : List α)
    (hx : p x = false) :
    ((l ++ x :: r).reverse.dropWhile p).reverse = l ++ x :: (r.reverse.dropWhile p).reverse := by
  have h : (l ++ x :: r).reverse = r.reverse ++ x :: l.reverse := by simp
  rw [h, dropWhile_append_cons p _ _ _ hx]
  simp

theorem exists_first_not {α : Type} (p : α → Bool) (l : List α)
    (h : ¬ ∀ x ∈ l, p x = true) :
    ∃ a x b, l = a ++ x :: b ∧ (∀ y ∈ a, p y = true) ∧ p x = false := by
  induction l with
  | nil => exact absurd (fun x hx => by cases hx) h
  | cons c l ih =>
    by_cases hc : p c = true
    · have h' : ¬ ∀ x ∈ l, p x = true := by
        intro hall
        apply h
        intro x hx
        rcases List.mem_cons.mp hx with rfl | hx
        · exact hc
        · exact hall x hx
      obtain ⟨a, x, b, rfl, ha, hx⟩ := ih h'
      refine ⟨c :: a, x, b, rfl, ?_, hx⟩
      intro y hy
      rcases List.mem_cons.mp hy with rfl | hy
      · exact hc
      · exact ha y hy
    · exact ⟨[], c, l, rfl, (fun y hy => absurd hy (List.not_mem_nil y)), by simpa using hc⟩

theorem dropWhile_dropEnd_comm {α : Type} (p : α → Bool) (l : List α) :
    ((l.reverse.dropWhile p).reverse).dropWhile p =
      ((l.dropWhile p).reverse.dropWhile p).reverse := by
  by_cases h : ∀ x ∈ l, p x = true
  · have h1 : l.dropWhile p = [] := dropWhile_of_all p l h
    have h2 : l.reverse.dropWhile p = [] :=
      dropWhile_of_all p _ fun x hx => h x (List.mem_reverse.mp hx)
    simp [h1, h2]
  · obtain ⟨a, x, b, rfl, ha, hx⟩ := exists_first_not p l h
    rw [dropEnd_append_cons p a x b hx, dropWhile_append_cons p a x _ hx,
      dropWhile_append_cons p a x b hx, dropWhile_of_all p a ha]
    simpa using (dropEnd_append_cons p [] x b hx).symm

theorem dropWhile_idem {α : Type} (p : α → Bool) (l : List α) :
    (l.dropWhile p).dropWhile p = l.dropWhile p := by
  induction l with
  | nil => rfl
  | cons a l ih =>
    by_cases ha : p a = true
    · simp [List.dropWhile, ha, ih]
    · simp [List.dropWhile, ha]

theorem TrimSpace_eq (s : String) : TrimSpace s = ⟨trimChars s.data⟩ := rfl

theorem trimChars_dropWhile (l : List Char) :
    trimChars (l.dropWhile isSpace) = trimChars l := by
  unfold trimChars
  rw [dropWhile_idem]

theorem trimChars_dropEnd (l : List Char) :
    trimChars (l.reverse.dropWhile isSpace).reverse = trimChars l := by
  have h := dropWhile_dropEnd_comm isSpace l
  unfold trimChars
  rw [h, List.reverse_reverse, dropWhile_idem]

theorem trimChars_cut (sep : Char) (hsep : isSpace sep = false) (before after : List Char) :
    trimChars (before ++ sep :: after) =
      before.dropWhile isSpace ++ sep :: (after.reverse.dropWhile isSpace).reverse := by
  unfold trimChars
  rw [dropWhile_append_cons isSpace _ _ _ hsep, dropEnd_append_cons isSpace _ _ _ hsep]

theorem mem_of_mem_dropWhile {α : Type} (p : α → Bool) {l : List α} {x : α}
    (h : x ∈ l.dropWhile p) : x ∈ l :=
  (List.dropWhile_sublist p).subset h

theorem mem_of_mem_trimChars {l : List Char} {x : Char} (h : x ∈ trimChars l) : x ∈ l := by
  unfold trimChars at h
  exact mem_of_mem_dropWhile _ (List.mem_reverse.mp (mem_of_mem_dropWhile _ (List.mem_reverse.mp h)))

theorem cutFirst_eq_none {sep : Char} {l : List Char} (h : sep ∉ l) : cutFirst sep l = none := by
  induction l with
  | nil => rfl
  | cons c cs ih =>
    have hc : ¬ c = sep := fun e => h (e ▸ List.mem_cons_self _ _)
    have hcs : sep ∉ cs := fun hm => h (List.mem_cons_of_mem _ hm)
    simp [cutFirst, hc, ih hcs]

theorem cutFirst_append_cons {sep : Char} {a : List Char} (b : List Char) (h : sep ∉ a) :
    cutFirst sep (a ++ sep :: b) = some (a, b) := by
  induction a with
  | nil => simp [cutFirst]
  | cons c cs ih =>
    have hc : ¬ c = sep := fun e => h (e ▸ List.mem_cons_self _ _)
    have hcs : sep ∉ cs := fun hm => h (List.mem_cons_of_mem _ hm)
    simp [cutFirst, hc, ih hcs]

theorem cutFirst_some_of_mem {sep : Char} {l : List Char} (h : sep ∈ l) :
    ∃ a b, l = a ++ sep :: b ∧ sep ∉ a ∧ cutFirst sep l = some (a, b) := by
  induction l with
  | nil => cases h
  | cons c cs ih =>
    by_cases hc : c = sep
    · subst hc
      exact ⟨[], cs, rfl, by simp, by simp [cutFirst]⟩
    · have hcs : sep ∈ cs := by
        rcases List.mem_cons.mp h with e | hm
        · exact absurd e.symm hc
        · exact hm
      obtain ⟨a, b, rfl, ha, hcut⟩ := ih hcs
      refine ⟨c :: a, b, rfl, ?_, ?_⟩
      · intro hm
        rcases List.mem_cons.mp hm with e | hm
        · exact hc e.symm
        · exact ha hm
      · simp [cutFirst, hc, hcut]

/-- The entry made from a line cut at the first `sep`, when the scanning loop
cuts there. -/
theorem parseLine_of_cut (text : String) (sep : Char) (hsep : isSpace sep = false)
    (hblank : TrimSpace text ≠ "") (hcomment : HasPrefix (TrimSpace text) "#" = false)
    (hpick : sep = '=' ∨ (sep = ':' ∧ '=' ∉ text.data))
    (before after : List Char) (hcut : text.data = before ++ sep :: after)
    (hfirst : sep ∉ before) :
    parseLine text = some ⟨Split (TrimSpace ⟨before⟩) '.', TrimSpace ⟨after⟩⟩ := by
  have hline : (TrimSpace text).data =
      before.dropWhile isSpace ++ sep :: (after.reverse.dropWhile isSpace).reverse := by
    rw [TrimSpace_eq, hcut]
    exact trimChars_cut sep hsep before after
  have hfirst' : sep ∉ before.dropWhile isSpace := fun h => hfirst (mem_of_mem_dropWhile _ h)
  have hc := cutFirst_append_cons ((after.reverse.dropWhile isSpace).reverse) hfirst'
  rw [← hline] at hc
  have hk : TrimSpace ⟨before.dropWhile isSpace⟩ = TrimSpace ⟨before⟩ := by
    rw [TrimSpace_eq, TrimSpace_eq]
    simp only [trimChars_dropWhile]
  have hv : TrimSpace ⟨(after.reverse.dropWhile isSpace).reverse⟩ = TrimSpace ⟨after⟩ := by
    rw [TrimSpace_eq, TrimSpace_eq]
    simp only [trimChars_dropEnd]
  unfold parseLine
  simp only [hcomment, Bool.or_false, decide_eq_true_eq, hblank, if_false]
  rcases hpick with rfl | ⟨rfl, hno⟩
  · simp only [SplitN2, hc, List.length_cons, List.length_nil]
    simp [hk, hv]
  · have hnone : cutFirst '=' (TrimSpace text).data = none :=
      cutFirst_eq_none fun h => hno (mem_of_mem_trimChars (by rw [TrimSpace_eq] at h; exact h))
    simp only [SplitN2, hc, hnone, List.length_cons, List.length_nil]
    simp [hk, hv]

/-! ## Splitting a key into segments -/

theorem splitChars_ne_nil (sep : Char) (l : List Char) : splitChars sep l ≠ [] := by
  cases l with
  | nil => simp [splitChars]
  | cons c cs =>
    unfold splitChars
    split
    · simp
    · split <;> simp

theorem splitChars_length (sep : Char) (l : List Char) :
    (splitChars sep l).length = l.count sep + 1 := by
  induction l with
  | nil => simp [splitChars]
  | cons c cs ih =>
    by_cases hc : c = sep
    · subst hc
      simp [splitChars, ih]
    · have hcount : (c :: cs).count sep = cs.count sep := by
        rw [List.count_cons]
        simp [hc]
      rw [hcount, ← ih]
      cases hs : splitChars sep cs with
      | nil => exact absurd hs (splitChars_ne_nil sep cs)
      | cons seg segs => simp [splitChars, hc, hs]

theorem splitChars_no_sep (sep : Char) (l : List Char) :
    ∀ seg ∈ splitChars sep l, sep ∉ seg := by
  induction l with
  | nil => simp [splitChars]
  | cons c cs ih =>
    by_cases hc : c = sep
    · subst hc
      intro seg hseg
      simp only [splitChars, if_true, List.mem_cons] at hseg
      rcases hseg with rfl | hseg
      · simp
      · exact ih seg hseg
    · cases hs : splitChars sep cs with
      | nil => exact absurd hs (splitChars_ne_nil sep cs)
      | cons seg0 segs =>
        rw [hs] at ih
        intro seg hseg
        simp only [splitChars, if_neg hc, hs, List.mem_cons] at hseg
        rcases hseg with rfl | hseg
        · intro hm
          rcases List.mem_cons.mp hm with e | hm
          · exact hc e.symm
          · exact ih seg0 (List.mem_cons_self _ _) hm
        · exact ih seg (List.mem_cons_of_mem _ hseg)

theorem splitChars_intercalate (sep : Char) (l : List Char) :
    List.intercalate [sep] (splitChars sep l) = l := by
  induction l with
  | nil => simp [splitChars, List.intercalate]
  | cons c cs ih =>
    cases hs : splitChars sep cs with
    | nil => exact absurd hs (splitChars_ne_nil sep cs)
    | cons seg segs =>
      rw [hs] at ih
      by_cases hc : c = sep
      · subst hc
        simp only [splitChars, if_true, hs]
        simp only [List.intercalate, List.intersperse_cons_cons, List.flatten_cons,
          List.nil_append, List.singleton_append] at ih ⊢
        rw [ih]
      · simp only [splitChars, if_neg hc, hs]
        cases segs with
        | nil =>
          simp only [List.intercalate, List.intersperse_single, List.flatten_cons,
            List.flatten_nil, List.append_nil] at ih ⊢
          rw [ih]
        | cons s2 rest =>
          simp only [List.intercalate, List.intersperse_cons_cons, List.flatten_cons,
            List.cons_append] at ih ⊢
          rw [ih]

theorem splitChars_append_cons (sep : Char) (a rest : List Char) (h : sep ∉ a) :
    splitChars sep (a ++ sep :: rest) = a :: splitChars sep rest := by
  induction a with
  | nil => simp [splitChars]
  | cons c cs ih =>
    have hc : ¬ c = sep := fun e => h (e ▸ List.mem_cons_self _ _)
    have hcs : sep ∉ cs := fun hm => h (List.mem_cons_of_mem _ hm)
    simp [splitChars, hc, ih hcs]

theorem Split_facts (key : String) :
    (Split key '.').length = key.data.count '.' + 1 ∧
    (∀ seg ∈ Split key '.', '.' ∉ seg.data) ∧
    List.intercalate ['.'] ((Split key '.').map String.data) = key.data := by
  refine ⟨?_, ?_, ?_⟩
  · simp [Split, splitChars_length]
  · intro seg hseg
    simp only [Split, List.mem_map] at hseg
    obtain ⟨cs, hcs, rfl⟩ := hseg
    exact splitChars_no_sep '.' key.data cs hcs
  · have : (Split key '.').map String.data = splitChars '.' key.data := by
      simp [Split, Function.comp_def]
    rw [this, splitChars_intercalate]

theorem Split_ne_nil (key : String) : Split key '.' ≠ [] := by
  intro h
  have := (Split_facts key).1
  rw [h] at this
  simp at this

/-! ## The scanning loop -/

theorem parseLoop_eq (rest : List String) (props : List propLine) :
    parseLoop rest props = props ++ rest.filterMap parseLine := by
  induction rest generalizing props with
  | nil => simp [parseLoop]
  | cons text rest ih =>
    cases h : parseLine text with
    | none => simp [parseLoop, h, ih]
    | some p => simp [parseLoop, h, ih]

theorem parse_eq (lines : List String) : parse lines = lines.filterMap parseLine := by
  simp [parse, parseLoop_eq]

theorem parseLine_keys_ne_nil {text : String} {p : propLine} (h : parseLine text = some p) :
    p.Keys ≠ [] := by
  unfold parseLine at h
  simp only at h
  split at h
  · cases h
  · split at h
    · simp only [Option.some.injEq] at h
      rw [← h]
      exact Split_ne_nil _
    · cases h

theorem parseLine_isSome (text : String) : (parseLine text).isSome = accepted text := by
  unfold parseLine accepted
  simp only
  by_cases hb : TrimSpace text = ""
  · simp [hb]
  · cases hc : HasPrefix (TrimSpace text) "#" with
    | true => simp [hb]
    | false =>
      simp only [hb, decide_False, Bool.or_false, Bool.false_eq_true, if_false, ne_eq,
        not_false_eq_true, decide_True, Bool.not_false, Bool.and_self, Bool.true_and]
      by_cases he : '=' ∈ (TrimSpace text).data
      · obtain ⟨a, b, _, _, hcut⟩ := cutFirst_some_of_mem he
        simp [SplitN2, hcut, he]
      · have hnone := cutFirst_eq_none he
        by_cases hcol : ':' ∈ (TrimSpace text).data
        · obtain ⟨a, b, _, _, hcut⟩ := cutFirst_some_of_mem hcol
          simp [SplitN2, hcut, hnone, he, hcol]
        · have hnone2 := cutFirst_eq_none hcol
          simp [SplitN2, hnone, hnone2, he, hcol]

theorem filterMap_map_some {α β : Type} (f : α → Option β) (l : List α) :
    (l.filterMap f).map some = (l.filter fun a => (f a).isSome).map f := by
  induction l with
  | nil => rfl
  | cons a l ih =>
    cases h : f a with
    | none => simp [List.filterMap_cons, h, ih]
    | some b => simp [List.filterMap_cons, h, ih]

theorem single_entry_tree (keys : List String) (v : String) (sortAlpha : Bool) :
    buildTree [⟨keys, v⟩] sortAlpha = chainOf keys v := by
  induction keys with
  | nil => exact buildTree_leaf v sortAlpha
  | cons k ks ih =>
    have hl : leafValue [(⟨k :: ks, v⟩ : propLine)] = none := by simp [leafValue]
    have ho : ordered [(⟨k :: ks, v⟩ : propLine)] sortAlpha = [⟨k, [⟨ks, v⟩]⟩] := by
      cases sortAlpha <;>
        simp [ordered, collect, collectLoop, groupLines, sortPairs]
    rw [buildTree_mapping sortAlpha hl, ho]
    simp only [List.map_cons, List.map_nil, ih]
    rfl

/-! ## The pretty post-pass and the parser: claims -/

/-- C11: the rendered lines `a:`, `  b: "1"`, `  c: "2"`, `d: "3"` hold two
top-level key-value blocks, yet the pretty post-pass returns them unchanged:
the line `d: "3"` has a scalar on the same line, does not end with a colon, is
not classified top-level key, and no blank line is inserted before it; the
same with the scalars rendered plain, and with the scalar block first. -/
theorem prettyPass_scalar_block_unspaced :
    isTop "a:" = true ∧ isTop "d: \"3\"" = false ∧ isTop "d: 3" = false ∧
    prettyPass ["a:", "  b: \"1\"", "  c: \"2\"", "d: \"3\""] =
      ["a:", "  b: \"1\"", "  c: \"2\"", "d: \"3\""] ∧
    prettyPass ["a:", "  b: 1", "  c: 2", "d: 3"] = ["a:", "  b: 1", "  c: 2", "d: 3"] ∧
    prettyPass ["d: 3", "a:", "  b: 1"] = ["d: 3", "a:", "  b: 1"] := by
  decide

/-- C12: for a line that is non-blank and no comment: if it contains `=`, the
entry's key is the trimmed text before the first `=` and its value the trimmed
text after it, whatever stands before (also a `:`); if it contains no `=` but a
`:`, the same at the first `:`; the path segments are the key split on every
`.`: one segment more than dots, no dot in a segment, and the segments joined
by dots give the key back. -/
theorem parseLine_key_value (text : String)
    (hblank : TrimSpace text ≠ "") (hcomment : HasPrefix (TrimSpace text) "#" = false) :
    (∀ before after : List Char, text.data = before ++ '=' :: after → '=' ∉ before →
      parseLine text = some ⟨Split (TrimSpace ⟨before⟩) '.', TrimSpace ⟨after⟩⟩) ∧
    ('=' ∉ text.data →
      ∀ before after : List Char, text.data = before ++ ':' :: after → ':' ∉ before →
        parseLine text = some ⟨Split (TrimSpace ⟨before⟩) '.', TrimSpace ⟨after⟩⟩) ∧
    (∀ key : String,
      (Split key '.').length = key.data.count '.' + 1 ∧
      (∀ seg ∈ Split key '.', '.' ∉ seg.data) ∧
      List.intercalate ['.'] ((Split key '.').map String.data) = key.data) := by
  refine ⟨?_, ?_, Split_facts⟩
  · intro before after hcut hfirst
    exact parseLine_of_cut text '=' (by decide) hblank hcomment (Or.inl rfl) before after
      hcut hfirst
  · intro hno before after hcut hfirst
    exact parseLine_of_cut text ':' (by decide) hblank hcomment (Or.inr ⟨rfl, hno⟩) before after
      hcut hfirst

theorem parseLine_key_value_witness :
    TrimSpace "  a.b : c = d = e " ≠ "" ∧
    HasPrefix (TrimSpace "  a.b : c = d = e ") "#" = false ∧
    "  a.b : c = d = e ".data = "  a.b : c ".data ++ '=' :: " d = e ".data ∧
    '=' ∉ "  a.b : c ".data ∧
    parseLine "  a.b : c = d = e " =
      some ⟨Split (TrimSpace ⟨"  a.b : c ".data⟩) '.', TrimSpace ⟨" d = e ".data⟩⟩ ∧
    Split (TrimSpace ⟨"  a.b : c ".data⟩) '.' = ["a", "b : c"] ∧
    TrimSpace ⟨" d = e ".data⟩ = "d = e" ∧
    TrimSpace "a.b : c : d" ≠ "" ∧
    HasPrefix (TrimSpace "a.b : c : d") "#" = false ∧
    '=' ∉ "a.b : c : d".data ∧
    parseLine "a.b : c : d" =
      some ⟨Split (TrimSpace ⟨"a.b ".data⟩) '.', TrimSpace ⟨" c : d".data⟩⟩ :=
  ⟨by decide, by decide, by decide, by decide,
   (parseLine_key_value "  a.b : c = d = e " (by decide) (by decide)).1
     "  a.b : c ".data " d = e ".data (by decide) (by decide),
   by decide, by decide, by decide, by decide, by decide,
   (parseLine_key_value "a.b : c : d" (by decide) (by decide)).2.1 (by decide)
     "a.b ".data " c : d".data (by decide) (by decide)⟩

/-- C13: the parsed entry sequence holds exactly one entry for each line
that, after white space trimming, is non-empty, does not start with `#` and
contains `=` or `:`, in the order of the lines, the entry being the one made
from that line; a line gives an entry exactly when it is such a line, so blank
lines, `#` lines and lines with neither delimiter give none. -/
theorem parse_entries (lines : List String) :
    (parse lines).map some = (lines.filter fun text => accepted text).map parseLine ∧
    (parse lines).length = lines.countP (fun text => accepted text) ∧
    (∀ text : String, (parseLine text).isSome = accepted text) := by
  have h1 : (parse lines).map some =
      (lines.filter fun text => accepted text).map parseLine := by
    rw [parse_eq, filterMap_map_some]
    simp only [parseLine_isSome]
  refine ⟨h1, ?_, parseLine_isSome⟩
  have h2 := congrArg List.length h1
  simp only [List.length_map] at h2
  rw [h2, List.countP_eq_length_filter]

/-- C14: an empty path segment is an ordinary key.  Splitting a dotted key
gives one segment per dot plus one, and two consecutive dots give an empty
segment between them; `buildTree` on one entry nests one mapping per segment,
empty or not, and the child stored under the empty segment is the tree of the
entries that begin with it.  The line `x..y=1` is parsed to the segments
x, empty, y with value 1 and builds x -> { "" -> { y -> 1 } }. -/
theorem empty_segment_is_key :
    (∀ key : String, (Split key '.').length = key.data.count '.' + 1) ∧
    (∀ a b : List Char, '.' ∉ a →
      Split ⟨a ++ '.' :: '.' :: b⟩ '.' = ⟨a⟩ :: "" :: Split ⟨b⟩ '.') ∧
    (∀ (keys : List String) (v : String) (sortAlpha : Bool),
      buildTree [⟨keys, v⟩] sortAlpha = chainOf keys v) ∧
    (∀ (pairs : List propLine) (sortAlpha : Bool),
      (∃ p ∈ pairs, p.Keys.head? = some "") →
        (buildTree pairs sortAlpha).child "" =
          some (buildTree (subGroup "" pairs) sortAlpha)) ∧
    parseLine "x..y=1" = some ⟨["x", "", "y"], "1"⟩ ∧
    buildTree [⟨["x", "", "y"], "1"⟩] false =
      Node.mapping [("x", Node.mapping [("", Node.mapping [("y", Node.scalar "1")])])] := by
  refine ⟨fun key => (Split_facts key).1, ?_, single_entry_tree, ?_, by decide, rfl⟩
  · intro a b ha
    simp only [Split]
    have h2 : splitChars '.' ('.' :: b) = [] :: splitChars '.' b := by simp [splitChars]
    rw [splitChars_append_cons '.' a _ ha, h2]
    rfl
  · intro pairs sortAlpha hs
    rw [← groupLines_eq_subGroup]
    exact child_buildTree sortAlpha (mem_firstSegs.mpr hs)

theorem empty_segment_is_key_witness :
    '.' ∉ "x".data ∧
    Split ⟨"x".data ++ '.' :: '.' :: "y".data⟩ '.' = ⟨"x".data⟩ :: "" :: Split ⟨"y".data⟩ '.' ∧
    (∃ p ∈ ([⟨["a"], "0"⟩, ⟨["", "y"], "1"⟩, ⟨["", "z"], "2"⟩] : List propLine),
      p.Keys.head? = some "") ∧
    (buildTree [⟨["a"], "0"⟩, ⟨["", "y"], "1"⟩, ⟨["", "z"], "2"⟩] true).child "" =
      some (buildTree (subGroup "" [⟨["a"], "0"⟩, ⟨["", "y"], "1"⟩, ⟨["", "z"], "2"⟩]) true) :=
  ⟨by decide, empty_segment_is_key.2.1 "x".data "y".data (by decide),
   ⟨⟨["", "y"], "1"⟩, by decide, by decide⟩,
   empty_segment_is_key.2.2.2.1 [⟨["a"], "0"⟩, ⟨["", "y"], "1"⟩, ⟨["", "z"], "2"⟩] true
     ⟨⟨["", "y"], "1"⟩, by decide, by decide⟩⟩

/-- C15: for every list of input lines and both ordering modes the tree built
from the parsed entries has a mapping at its root: the parser never makes an
entry with zero path segments, and `buildTree` on a sequence whose entries
all have non-empty paths returns a mapping. -/
theorem parsed_tree_is_mapping (lines : List String) (sortAlpha : Bool) :
    (∃ content, buildTree (parse lines) sortAlpha = Node.mapping content) ∧
    (∀ p ∈ parse lines, p.Keys ≠ []) ∧
    (∀ pairs : List propLine, (∀ p ∈ pairs, p.Keys ≠ []) →
      ∃ content, buildTree pairs sortAlpha = Node.mapping content) := by
  have hkeys : ∀ p ∈ parse lines, p.Keys ≠ [] := by
    intro p hp
    rw [parse_eq, List.mem_filterMap] at hp
    obtain ⟨text, _, ht⟩ := hp
    exact parseLine_keys_ne_nil ht
  have hmap : ∀ pairs : List propLine, (∀ p ∈ pairs, p.Keys ≠ []) →
      ∃ content, buildTree pairs sortAlpha = Node.mapping content := by
    intro pairs h
    refine ⟨_, buildTree_mapping sortAlpha ?_⟩
    rw [leafValue_eq_none]
    rintro v rfl
    exact h _ (List.mem_singleton_self _) rfl
  exact ⟨hmap _ hkeys, hkeys, hmap⟩

theorem parsed_tree_is_mapping_witness :
    (⟨["d"], "3"⟩ : propLine) ∈ parse ["# note", "a.b=1", "", "d : 3"] ∧
    (⟨["d"], "3"⟩ : propLine).Keys ≠ [] ∧
    (∀ p ∈ ([⟨["a", "b"], "1"⟩, ⟨["d"], "3"⟩] : List propLine), p.Keys ≠ []) ∧
    (∃ content, buildTree [⟨["a", "b"], "1"⟩, ⟨["d"], "3"⟩] true = Node.mapping content) :=
  ⟨by decide,
   (parsed_tree_is_mapping ["# note", "a.b=1", "", "d : 3"] true).2.1 ⟨["d"], "3"⟩ (by decide),
   by decide,
   (parsed_tree_is_mapping [] true).2.2 [⟨["a", "b"], "1"⟩, ⟨["d"], "3"⟩] (by decide)⟩

/-- C16: for both ordering modes `buildTree` on the empty entry sequence
returns a mapping with no entries. -/
theorem buildTree_nil (sortAlpha : Bool) : buildTree [] sortAlpha = Node.mapping [] := by
  cases sortAlpha <;> rfl

/-! ## Paths in the tree -/

theorem at_path {pairs : List propLine} {sortAlpha : Bool} {P : List String} {n : Node}
    (h : (buildTree pairs sortAlpha).At P n) : P = [] ∨ ∃ q ∈ pairs, P <+: q.Keys := by
  induction P generalizing pairs with
  | nil => exact Or.inl rfl
  | cons k P ih =>
    right
    rw [buildTree_eq] at h
    cases hl : leafValue pairs with
    | some w => rw [hl] at h; cases h
    | none =>
      rw [hl] at h
      cases h with
      | step hmem hrest =>
        obtain ⟨hk, rfl⟩ := mem_content.mp hmem
        rcases ih hrest with rfl | ⟨q', hq', hpre⟩
        · obtain ⟨q, hq, hhead⟩ := mem_firstSegs.mp hk
          refine ⟨q, hq, ?_⟩
          cases hkeys : q.Keys with
          | nil => rw [hkeys] at hhead; cases hhead
          | cons a as =>
            rw [hkeys] at hhead
            simp only [List.head?_cons, Option.some.injEq] at hhead
            subst hhead
            simp [List.cons_prefix_cons]
        · refine ⟨_, mem_groupLines.mp hq', ?_⟩
          simpa [List.cons_prefix_cons] using hpre

theorem at_of_prefix {pairs : List propLine} (sortAlpha : Bool) {P : List String}
    (h : P = [] ∨ ∃ q ∈ pairs, P <+: q.Keys) :
    (buildTree pairs sortAlpha).At P (buildTree (groupAt pairs P) sortAlpha) := by
  induction P generalizing pairs with
  | nil => exact Node.At.here _
  | cons k P ih =>
    rcases h with h | ⟨q, hq, hpre⟩
    · cases h
    · obtain ⟨keys, v⟩ := q
      cases keys with
      | nil => simp at hpre
      | cons a as =>
        simp only [List.cons_prefix_cons] at hpre
        obtain ⟨rfl, hpre⟩ := hpre
        have hk : k ∈ firstSegs pairs := mem_firstSegs.mpr ⟨_, hq, rfl⟩
        rw [buildTree_mapping sortAlpha (leafValue_none_of_firstSeg hk)]
        refine Node.At.step (mem_content.mpr ⟨hk, rfl⟩) ?_
        simp only [groupAt, ← groupLines_eq_subGroup]
        exact ih (Or.inr ⟨⟨as, v⟩, mem_groupLines.mpr hq, hpre⟩)

theorem at_iff {pairs : List propLine} {sortAlpha : Bool} {P : List String} {n : Node} :
    (buildTree pairs sortAlpha).At P n ↔
      n = buildTree (groupAt pairs P) sortAlpha ∧ (P = [] ∨ ∃ q ∈ pairs, P <+: q.Keys) := by
  constructor
  · intro h
    exact ⟨at_buildTree h, at_path h⟩
  · rintro ⟨rfl, h⟩
    exact at_of_prefix sortAlpha h

theorem follow_of_prefix {pairs : List propLine} (sortAlpha : Bool) {P : List String}
    (h : P = [] ∨ ∃ q ∈ pairs, P <+: q.Keys) :
    (buildTree pairs sortAlpha).follow P = some (buildTree (groupAt pairs P) sortAlpha) := by
  induction P generalizing pairs with
  | nil => rfl
  | cons k P ih =>
    rcases h with h | ⟨q, hq, hpre⟩
    · cases h
    · obtain ⟨keys, v⟩ := q
      cases keys with
      | nil => simp at hpre
      | cons a as =>
        simp only [List.cons_prefix_cons] at hpre
        obtain ⟨rfl, hpre⟩ := hpre
        have hk : k ∈ firstSegs pairs := mem_firstSegs.mpr ⟨_, hq, rfl⟩
        simp only [Node.follow, child_buildTree sortAlpha hk, groupAt,
          ← groupLines_eq_subGroup]
        exact ih (Or.inr ⟨⟨as, v⟩, mem_groupLines.mpr hq, hpre⟩)

/-! ## The two ordering modes -/

theorem sortTreeList_eq (c : List (String × Node)) :
    sortTreeList c = c.map fun e => (e.1, e.2.sortTree) := by
  induction c with
  | nil => simp [sortTreeList]
  | cons e rest ih =>
    obtain ⟨k, t⟩ := e
    simp [sortTreeList, ih]

theorem sortTree_mapping (c : List (String × Node)) :
    (Node.mapping c).sortTree =
      Node.mapping (sortContent (c.map fun e => (e.1, e.2.sortTree))) := by
  rw [Node.sortTree, sortTreeList_eq]

theorem sortTree_scalar (v : String) : (Node.scalar v).sortTree = Node.scalar v := by
  rw [Node.sortTree]

theorem alpha_tree_sorted_aux (n : Nat) :
    ∀ pairs : List propLine, depth pairs < n →
      buildTree pairs true = (buildTree pairs false).sortTree := by
  induction n with
  | zero => intro pairs h; omega
  | succ n ih =>
    intro pairs hd
    rw [buildTree_eq pairs true, buildTree_eq pairs false]
    cases hl : leafValue pairs with
    | some v => simp only [sortTree_scalar]
    | none =>
      simp only [sortTree_mapping, Node.mapping.injEq, List.map_map, Function.comp_def]
      have hchild : (ordered pairs false).map
          (fun p => (p.Key, (buildTree p.Lines false).sortTree)) =
          (ordered pairs false).map (fun p => (p.Key, buildTree p.Lines true)) := by
        apply List.map_congr_left
        intro p hp
        have := ordered_depth_lt hp
        rw [ih p.Lines (by omega)]
      rw [hchild]
      simp only [ordered, if_true, Bool.false_eq_true, if_false, sortPairs, sortContent]
      exact List.map_insertionSort (r := keyLE) (s := entryLE)
        (fun p => (p.Key, buildTree p.Lines true)) (collect pairs)
        (fun a _ b _ => Iff.rfl)

theorem alpha_tree_sorted (pairs : List propLine) :
    buildTree pairs true = (buildTree pairs false).sortTree :=
  alpha_tree_sorted_aux (depth pairs + 1) pairs (Nat.lt_succ_self _)

/-! ## Order of the entries -/

theorem leafValue_perm {l₁ l₂ : List propLine} (h : l₁.Perm l₂) :
    leafValue l₁ = leafValue l₂ := by
  cases h1 : leafValue l₁ with
  | some v =>
    have e1 := leafValue_eq_some.mp h1
    rw [e1] at h
    have e2 : l₂ = [⟨[], v⟩] := List.perm_singleton.mp h.symm
    exact (leafValue_eq_some.mpr e2).symm
  | none =>
    cases h2 : leafValue l₂ with
    | none => rfl
    | some v =>
      have e2 := leafValue_eq_some.mp h2
      rw [e2] at h
      have e1 : l₁ = [⟨[], v⟩] := List.perm_singleton.mp h
      rw [leafValue_eq_some.mpr e1] at h1
      cases h1

theorem groupLines_perm (k : String) {l₁ l₂ : List propLine} (h : l₁.Perm l₂) :
    (groupLines k l₁).Perm (groupLines k l₂) := by
  rw [groupLines_eq_subGroup, groupLines_eq_subGroup]
  exact (h.filter _).map _

theorem firstSegs_perm {l₁ l₂ : List propLine} (h : l₁.Perm l₂) :
    (firstSegs l₁).Perm (firstSegs l₂) :=
  h.filterMap _

theorem depth_perm {l₁ l₂ : List propLine} (h : l₁.Perm l₂) : depth l₁ = depth l₂ := by
  apply le_antisymm
  · by_contra hlt
    have := depth_lt_iff.mpr ⟨by omega, fun p hp =>
      Nat.lt_succ_of_le (length_le_depth (h.mem_iff.mp hp))⟩
    omega
  · by_contra hlt
    have := depth_lt_iff.mpr ⟨by omega, fun p hp =>
      Nat.lt_succ_of_le (length_le_depth (h.mem_iff.mpr hp))⟩
    omega

theorem ordered_eq_map_keys (pairs : List propLine) (sortAlpha : Bool) :
    ordered pairs sortAlpha =
      ((ordered pairs sortAlpha).map pair.Key).map fun k => ⟨k, groupLines k pairs⟩ := by
  rw [List.map_map]
  conv_lhs => rw [← List.map_id (ordered pairs sortAlpha)]
  apply List.map_congr_left
  intro p hp
  obtain ⟨k, ls⟩ := p
  have := (mem_ordered.mp hp).2
  simp only at this
  simp [this]

theorem alpha_keys_perm {l₁ l₂ : List propLine} (h : l₁.Perm l₂) :
    (ordered l₁ true).map pair.Key = (ordered l₂ true).map pair.Key := by
  have hs1 : ((ordered l₁ true).map pair.Key).Sorted (fun a b => a ≤ b) := by
    simp only [ordered, if_true]; exact sortPairs_sorted _
  have hs2 : ((ordered l₂ true).map pair.Key).Sorted (fun a b => a ≤ b) := by
    simp only [ordered, if_true]; exact sortPairs_sorted _
  refine List.eq_of_perm_of_sorted ?_ hs1 hs2
  rw [List.perm_ext_iff_of_nodup (ordered_keys_nodup _ _) (ordered_keys_nodup _ _)]
  intro k
  have key : ∀ l : List propLine, k ∈ (ordered l true).map pair.Key ↔ k ∈ firstSegs l := by
    intro l
    rw [List.mem_map]
    constructor
    · rintro ⟨p, hp, rfl⟩
      exact (mem_ordered.mp hp).1
    · intro hk
      exact ⟨⟨k, groupLines k l⟩, mem_ordered.mpr ⟨hk, rfl⟩, rfl⟩
  rw [key l₁, key l₂]
  exact (firstSegs_perm h).mem_iff

theorem buildTree_perm_aux (n : Nat) :
    ∀ l₁ l₂ : List propLine, depth l₁ < n → l₁.Perm l₂ →
      buildTree l₁ true = buildTree l₂ true := by
  induction n with
  | zero => intro l₁ l₂ h; omega
  | succ n ih =>
    intro l₁ l₂ hd hp
    rw [buildTree_eq l₁ true, buildTree_eq l₂ true, ← leafValue_perm hp]
    cases hl : leafValue l₁ with
    | some v => rfl
    | none =>
      simp only [Node.mapping.injEq]
      rw [ordered_eq_map_keys l₁ true, ordered_eq_map_keys l₂ true, ← alpha_keys_perm hp]
      simp only [List.map_map, Function.comp_def]
      apply List.map_congr_left
      intro p hmem
      have hk : p.Key ∈ firstSegs l₁ := (mem_ordered.mp hmem).1
      have hlt := depth_groupLines_lt hk
      simp only [Prod.mk.injEq, true_and]
      exact ih _ _ (by omega) (groupLines_perm p.Key hp)

/-! ## Duplicates and termination -/

theorem countP_groupLines (k : String) (Q : List String) (pairs : List propLine) :
    (groupLines k pairs).countP (fun p => p.Keys = Q) =
      pairs.countP (fun p => p.Keys = k :: Q) := by
  induction pairs with
  | nil => rfl
  | cons pp rest ih =>
    obtain ⟨keys, v⟩ := pp
    cases keys with
    | nil => simp [groupLines, List.countP_cons, ih]
    | cons k0 ks =>
      by_cases hk : k0 = k
      · subst hk
        simp [groupLines, List.countP_cons, ih]
      · simp [groupLines, List.countP_cons, ih, hk]

theorem countP_groupAt (P Q : List String) (pairs : List propLine) :
    (groupAt pairs P).countP (fun p => p.Keys = Q) =
      pairs.countP (fun p => p.Keys = P ++ Q) := by
  induction P generalizing pairs with
  | nil => rfl
  | cons k P ih =>
    simp only [groupAt, ← groupLines_eq_subGroup, ih, countP_groupLines, List.cons_append]

theorem collectSome_map_some {α : Type} (l : List α) :
    collectSome (l.map some) = some l := by
  induction l with
  | nil => rfl
  | cons a l ih => simp [collectSome, ih]

theorem buildTreeBounded_eq (n : Nat) :
    ∀ (pairs : List propLine) (sortAlpha : Bool), depth pairs < n →
      buildTreeBounded n pairs sortAlpha = some (buildTree pairs sortAlpha) := by
  induction n with
  | zero => intro pairs sortAlpha h; omega
  | succ n ih =>
    intro pairs sortAlpha hd
    rw [buildTree_eq]
    simp only [buildTreeBounded]
    cases hl : leafValue pairs with
    | some v => rfl
    | none =>
      have hchild : (ordered pairs sortAlpha).map (fun p =>
            match buildTreeBounded n p.Lines sortAlpha with
            | none => none
            | some t => some (p.Key, t)) =
          ((ordered pairs sortAlpha).map fun p => (p.Key, buildTree p.Lines sortAlpha)).map
            some := by
        rw [List.map_map]
        apply List.map_congr_left
        intro p hp
        have := ordered_depth_lt hp
        simp [ih p.Lines sortAlpha (by omega)]
      simp only [hchild, collectSome_map_some]

theorem callsTo_depth {sortAlpha : Bool} {callee caller : List propLine}
    (h : CallsTo sortAlpha callee caller) : depth callee < depth caller := by
  obtain ⟨_, p, hp, rfl⟩ := h
  exact ordered_depth_lt hp

/-! ## The tree builder: further claims -/

/-- C17: the ordering mode changes only sibling order: the tree built in
alphabetical mode is the tree built in original mode with the (segment, child)
pairs of every mapping sorted by segment, at every nesting level.  The same
scalars stand at the same key paths in both trees, and a node stands at a key
path of the original tree exactly when its sorted form stands at that key path
of the alphabetical tree. -/
theorem buildTree_alpha_eq_sortTree (pairs : List propLine) :
    buildTree pairs true = (buildTree pairs false).sortTree ∧
    (∀ P V, (buildTree pairs true).At P (Node.scalar V) ↔
      (buildTree pairs false).At P (Node.scalar V)) ∧
    (∀ P n, (buildTree pairs false).At P n → (buildTree pairs true).At P n.sortTree) ∧
    (∀ P m, (buildTree pairs true).At P m →
      ∃ n, (buildTree pairs false).At P n ∧ m = n.sortTree) := by
  refine ⟨alpha_tree_sorted pairs, ?_, ?_, ?_⟩
  · intro P V
    rw [at_iff, at_iff]
    have h1 : ∀ b : Bool, Node.scalar V = buildTree (groupAt pairs P) b ↔
        groupAt pairs P = [⟨[], V⟩] := fun b =>
      ⟨fun e => buildTree_eq_scalar.mp e.symm, fun e => (buildTree_eq_scalar.mpr e).symm⟩
    rw [h1 true, h1 false]
  · intro P n h
    obtain ⟨rfl, hpath⟩ := at_iff.mp h
    rw [← alpha_tree_sorted]
    exact at_of_prefix true hpath
  · intro P m h
    obtain ⟨rfl, hpath⟩ := at_iff.mp h
    exact ⟨_, at_of_prefix false hpath, alpha_tree_sorted _⟩

theorem buildTree_alpha_eq_sortTree_witness :
    (buildTree [⟨["d"], "3"⟩, ⟨["a", "c"], "2"⟩, ⟨["a", "b"], "1"⟩] false).At ["a"]
      (Node.mapping [("c", Node.scalar "2"), ("b", Node.scalar "1")]) ∧
    (buildTree [⟨["d"], "3"⟩, ⟨["a", "c"], "2"⟩, ⟨["a", "b"], "1"⟩] true).At ["a"]
      (Node.mapping [("c", Node.scalar "2"), ("b", Node.scalar "1")]).sortTree ∧
    (Node.mapping [("c", Node.scalar "2"), ("b", Node.scalar "1")]).sortTree =
      Node.mapping [("b", Node.scalar "1"), ("c", Node.scalar "2")] ∧
    buildTree [⟨["d"], "3"⟩, ⟨["a", "c"], "2"⟩, ⟨["a", "b"], "1"⟩] true =
      Node.mapping [("a", Node.mapping [("b", Node.scalar "1"), ("c", Node.scalar "2")]),
        ("d", Node.scalar "3")] :=
  ⟨Node.At.step (List.Mem.tail _ (List.Mem.head _)) (Node.At.here _),
   (buildTree_alpha_eq_sortTree [⟨["d"], "3"⟩, ⟨["a", "c"], "2"⟩, ⟨["a", "b"], "1"⟩]).2.2.1
     ["a"] (Node.mapping [("c", Node.scalar "2"), ("b", Node.scalar "1")])
     (Node.At.step (List.Mem.tail _ (List.Mem.head _)) (Node.At.here _)),
   rfl, rfl⟩

/-- C18: in alphabetical mode the result does not depend on the input order:
for every entry sequence and every permutation of it `buildTree` returns the
same tree. -/
theorem buildTree_alpha_perm (entries permuted : List propLine)
    (h : permuted.Perm entries) :
    buildTree permuted true = buildTree entries true :=
  buildTree_perm_aux (depth permuted + 1) permuted entries (Nat.lt_succ_self _) h

theorem buildTree_alpha_perm_witness :
    ([⟨["a", "b"], "1"⟩, ⟨["d"], "3"⟩, ⟨["a", "c"], "2"⟩] : List propLine).Perm
      [⟨["d"], "3"⟩, ⟨["a", "c"], "2"⟩, ⟨["a", "b"], "1"⟩] ∧
    buildTree [⟨["a", "b"], "1"⟩, ⟨["d"], "3"⟩, ⟨["a", "c"], "2"⟩] true =
      buildTree [⟨["d"], "3"⟩, ⟨["a", "c"], "2"⟩, ⟨["a", "b"], "1"⟩] true :=
  ⟨by decide,
   buildTree_alpha_perm [⟨["d"], "3"⟩, ⟨["a", "c"], "2"⟩, ⟨["a", "b"], "1"⟩]
     [⟨["a", "b"], "1"⟩, ⟨["d"], "3"⟩, ⟨["a", "c"], "2"⟩] (by decide)⟩

/-- C19: duplicate keys lose every value: when the same complete path P
occurs in two or more entries, then for both ordering modes following P in the
tree reaches a mapping, not a scalar; every scalar inside that mapping stands
at a non-empty further path Q and holds the value of the entry with the path
P ++ Q, so none of it comes from the duplicates; and when no entry's path
strictly extends P the mapping is empty. -/
theorem duplicate_paths_lose_values (pairs : List propLine) (sortAlpha : Bool)
    (P : List String) (hdup : 2 ≤ pairs.countP (fun p => p.Keys = P)) :
    ∃ content, (buildTree pairs sortAlpha).follow P = some (Node.mapping content) ∧
      (∀ v, (buildTree pairs sortAlpha).follow P ≠ some (Node.scalar v)) ∧
      (∀ Q V, (Node.mapping content).At Q (Node.scalar V) →
        Q ≠ [] ∧ (⟨P ++ Q, V⟩ : propLine) ∈ pairs) ∧
      ((∀ q ∈ pairs, P <+: q.Keys → q.Keys = P) → content = []) := by
  have hpos : 0 < pairs.countP (fun p => p.Keys = P) := by omega
  obtain ⟨q, hq, hqP⟩ := List.countP_pos_iff.mp hpos
  have hqP' : q.Keys = P := by simpa using hqP
  have hpath : P = [] ∨ ∃ q ∈ pairs, P <+: q.Keys :=
    Or.inr ⟨q, hq, by rw [hqP']⟩
  have hfollow := follow_of_prefix sortAlpha hpath
  have hcount : 2 ≤ (groupAt pairs P).countP (fun p => p.Keys = []) := by
    rw [countP_groupAt, List.append_nil]; exact hdup
  have hlen : 2 ≤ (groupAt pairs P).length := le_trans hcount (List.countP_le_length _)
  have hl := leafValue_of_two_le hlen
  have hmap := buildTree_mapping sortAlpha hl
  refine ⟨_, by rw [hfollow, hmap], ?_, ?_, ?_⟩
  · intro v hv
    rw [hfollow, hmap] at hv
    cases hv
  · intro Q V hat
    rw [← hmap] at hat
    constructor
    · rintro rfl
      rw [hmap] at hat
      cases hat
    · have := at_scalar_mem hat
      exact mem_groupAt.mp this
  · intro hext
    rw [List.map_eq_nil_iff, List.eq_nil_iff_forall_not_mem]
    intro p hp
    obtain ⟨q', hq', hhead⟩ := mem_firstSegs.mp (mem_ordered.mp hp).1
    have hmem := mem_groupAt.mp hq'
    have := hext _ hmem (List.prefix_append _ _)
    simp only at this
    have hnil : q'.Keys = [] := by
      have h2 : P ++ q'.Keys = P ++ [] := by rw [this, List.append_nil]
      exact List.append_cancel_left h2
    rw [hnil] at hhead
    cases hhead

theorem duplicate_paths_lose_values_witness :
    2 ≤ ([⟨["a"], "1"⟩, ⟨["a"], "2"⟩] : List propLine).countP (fun p => p.Keys = ["a"]) ∧
    (∀ q ∈ ([⟨["a"], "1"⟩, ⟨["a"], "2"⟩] : List propLine), ["a"] <+: q.Keys → q.Keys = ["a"]) ∧
    (∃ content,
      (buildTree [⟨["a"], "1"⟩, ⟨["a"], "2"⟩] false).follow ["a"] = some (Node.mapping content) ∧
      content = []) ∧
    buildTree [⟨["a"], "1"⟩, ⟨["a"], "2"⟩] false = Node.mapping [("a", Node.mapping [])] :=
  ⟨by decide, by decide,
   (duplicate_paths_lose_values [⟨["a"], "1"⟩, ⟨["a"], "2"⟩] false ["a"] (by decide)).imp
     fun _ h => ⟨h.1, h.2.2.2 (by decide)⟩,
   rfl⟩

/-- C20: `buildTree` is total.  For both ordering modes the call relation of
`buildTree` is well-founded: every recursive call receives a group whose paths
are each one segment shorter than a non-empty path of the current group, so
the longest path strictly decreases.  Run with any bound above the longest
path the recursion ends with a result before the bound is used up, and that
result is `buildTree`, which satisfies the recursion of the source. -/
theorem buildTree_total (sortAlpha : Bool) :
    WellFounded (CallsTo sortAlpha) ∧
    (∀ callee caller : List propLine, CallsTo sortAlpha callee caller →
      depth callee < depth caller ∧
      ∀ q ∈ callee, ∃ q' ∈ caller,
        q'.Keys ≠ [] ∧ q'.Keys.tail = q.Keys ∧ q.Keys.length + 1 = q'.Keys.length) ∧
    (∀ (pairs : List propLine) (fuel : Nat), depth pairs < fuel →
      buildTreeBounded fuel pairs sortAlpha = some (buildTree pairs sortAlpha) ∧
      buildTreeFuel fuel pairs sortAlpha = buildTree pairs sortAlpha) ∧
    (∀ pairs : List propLine, buildTree pairs sortAlpha =
      match leafValue pairs with
      | some v => Node.scalar v
      | none =>
        Node.mapping ((ordered pairs sortAlpha).map fun p =>
          (p.Key, buildTree p.Lines sortAlpha))) := by
  refine ⟨?_, ?_, ?_, fun pairs => buildTree_eq pairs sortAlpha⟩
  · exact Subrelation.wf (fun {a b} h => callsTo_depth h) (InvImage.wf depth Nat.lt_wfRel.wf)
  · intro callee caller h
    refine ⟨callsTo_depth h, ?_⟩
    obtain ⟨_, p, hp, rfl⟩ := h
    intro q hq
    rw [(mem_ordered.mp hp).2] at hq
    exact ⟨_, mem_groupLines.mp hq, by simp, rfl, rfl⟩
  · intro pairs fuel hf
    exact ⟨buildTreeBounded_eq fuel pairs sortAlpha hf,
      buildTreeFuel_stable fuel pairs sortAlpha hf⟩

theorem buildTree_total_witness :
    CallsTo false [⟨["b"], "1"⟩, ⟨["c", "e"], "2"⟩]
      [⟨["a", "b"], "1"⟩, ⟨["d"], "3"⟩, ⟨["a", "c", "e"], "2"⟩] ∧
    depth [⟨["b"], "1"⟩, ⟨["c", "e"], "2"⟩] <
      depth [⟨["a", "b"], "1"⟩, ⟨["d"], "3"⟩, ⟨["a", "c", "e"], "2"⟩] ∧
    depth [⟨["a", "b"], "1"⟩, ⟨["d"], "3"⟩, ⟨["a", "c", "e"], "2"⟩] < 4 ∧
    buildTreeBounded 4 [⟨["a", "b"], "1"⟩, ⟨["d"], "3"⟩, ⟨["a", "c", "e"], "2"⟩] false =
      some (buildTree [⟨["a", "b"], "1"⟩, ⟨["d"], "3"⟩, ⟨["a", "c", "e"], "2"⟩] false) :=
  ⟨⟨rfl, ⟨"a", [⟨["b"], "1"⟩, ⟨["c", "e"], "2"⟩]⟩, by decide, rfl⟩,
   ((buildTree_total false).2.1 [⟨["b"], "1"⟩, ⟨["c", "e"], "2"⟩]
     [⟨["a", "b"], "1"⟩, ⟨["d"], "3"⟩, ⟨["a", "c", "e"], "2"⟩]
     ⟨rfl, ⟨"a", [⟨["b"], "1"⟩, ⟨["c", "e"], "2"⟩]⟩, by decide, rfl⟩).1,
   by decide,
   ((buildTree_total false).2.2.1
     [⟨["a", "b"], "1"⟩, ⟨["d"], "3"⟩, ⟨["a", "c", "e"], "2"⟩] 4 (by decide)).1⟩

end PropertyToYaml
